import Mathlib

/-!
# LC-3 virtual machine (`vm.c`): shallow embedding and verified properties

The C program keeps its machine state in two global arrays, `reg[R_COUNT]` and
`memory[UINT16_MAX]`, and talks to the console through `getchar`, `putc`,
`printf` and `puts`.  The embedding below passes that state explicitly:

* 16-bit words (`uint16_t`) are natural numbers; every C expression that is
  truncated on assignment carries an explicit `% 65536`;
* `reg` and `memory` are functions `Nat → Nat`; register indices are enum
  constants or 3-bit fields, memory indices are checked against the declared
  array length and an access outside it is the outcome `Result.fault`;
* the console is a list of pending input bytes, an end-of-file marker and the
  list of bytes written so far.
-/

namespace LC3

/-! ## Enumerations of `vm.c` -/

abbrev R0 : Nat := 0
abbrev R1 : Nat := 1
abbrev R2 : Nat := 2
abbrev R3 : Nat := 3
abbrev R4 : Nat := 4
abbrev R5 : Nat := 5
abbrev R6 : Nat := 6
abbrev R7 : Nat := 7
/-- Program counter. -/
abbrev PC : Nat := 8
/-- Instruction register. -/
abbrev IR : Nat := 9
/-- Condition flag register. -/
abbrev R_COND : Nat := 10
abbrev R_COUNT : Nat := 11

/-- Keyboard status, memory mapped. -/
abbrev KBSR : Nat := 0xFE00
/-- Keyboard data, memory mapped. -/
abbrev KBDR : Nat := 0xFE02

abbrev OP_BR : Nat := 0
abbrev OP_ADD : Nat := 1
abbrev OP_LD : Nat := 2
abbrev OP_ST : Nat := 3
abbrev OP_JSR : Nat := 4
abbrev OP_AND : Nat := 5
abbrev OP_LDR : Nat := 6
abbrev OP_STR : Nat := 7
abbrev OP_RTI : Nat := 8
abbrev OP_NOT : Nat := 9
abbrev OP_LDI : Nat := 10
abbrev OP_STI : Nat := 11
abbrev OP_JMP : Nat := 12
abbrev OP_RES : Nat := 13
abbrev OP_LEA : Nat := 14
abbrev OP_TRAP : Nat := 15

abbrev TRAP_GETC : Nat := 0x20
abbrev TRAP_OUT : Nat := 0x21
abbrev TRAP_PUTS : Nat := 0x22
abbrev TRAP_IN : Nat := 0x23
abbrev TRAP_PUTSP : Nat := 0x24
abbrev TRAP_HALT : Nat := 0x25

/-- Positive, `1 << 0`. -/
abbrev POS : Nat := 1
/-- Zero, `1 << 1`. -/
abbrev ZRO : Nat := 2
/-- Negative, `1 << 2`. -/
abbrev NEG : Nat := 4

/-- The constant `UINT16_MAX` of `<stdint.h>`. -/
abbrev UINT16_MAX : Nat := 65535

/-- Number of elements of the global `uint16_t memory[UINT16_MAX]`: the valid
indices are `0 .. MEMORY_LEN - 1`. -/
abbrev MEMORY_LEN : Nat := UINT16_MAX

/-! ## Machine state and outcomes -/

/-- The globals of `vm.c` (`reg`, `memory`), the local `running` of `main`,
and the console: `input` holds the bytes waiting on stdin, `eof` tells whether
stdin is at end of file once they are consumed, `output` the bytes written to
stdout, oldest first. -/
structure VM where
  reg : Nat → Nat
  memory : Nat → Nat
  input : List Nat
  eof : Bool
  output : List Nat
  running : Bool

/-- What a piece of the program can do: return normally with a value, call
`abort()`, index `memory` outside its declared length, loop for ever, or wait
for ever in a blocking read. -/
inductive Result (α : Type) where
  | ok : α → Result α
  | abort : Result α
  | fault : Result α
  | diverge : Result α
  | blocked : Result α

/-- Array assignment `a[i] = v`. -/
def upd (a : Nat → Nat) (i v : Nat) : Nat → Nat :=
  fun j => if j = i then v else a j

/-- Conversion of a C `int` to `uint16_t`. -/
def toU16 (i : Int) : Nat := (i % 65536).toNat

/-- Conversion of a C `int` to `char`, taken as a signed 8-bit type (the
x86-64 System V convention). -/
def toChar (i : Int) : Int := (i + 128) % 256 - 128

/-- Conversion of a C `int` to `unsigned char`, as `putc` does with its
argument. -/
def toUChar (i : Int) : Nat := (i % 256).toNat

/-! ## Helper functions of `vm.c` -/

/-- Embeds `sign_ext` (vm.c:92-98).  The constant `0xFFFF` is an `int`; the
result of `|=` is truncated to `uint16_t`. -/
def sign_ext (x : Nat) (bit_count : Nat) : Nat :=
  if x >>> (bit_count - 1) ≠ 0 then
    (x ||| (0xFFFF <<< bit_count)) % 65536
  else
    x

/-- Embeds `update_flags` (vm.c:101-112) on the register array. -/
def update_flags (reg : Nat → Nat) (r : Nat) : Nat → Nat :=
  if reg r = 0 then
    upd reg R_COND ZRO
  else if reg r >>> 15 ≠ 0 then
    upd reg R_COND NEG
  else
    upd reg R_COND POS

/-- Embeds `check_key` (vm.c:153-163): `select` reports stdin readable when a
byte is waiting or the stream is at end of file. -/
def check_key (s : VM) : Bool :=
  !s.input.isEmpty || s.eof

/-- The library call `getchar()`: the next byte as an `int`, `EOF = -1` at end
of file, and a read that never returns when nothing is waiting and the stream
is still open. -/
def getchar (s : VM) : Result (Int × VM) :=
  match s.input with
  | c :: rest => .ok (Int.ofNat (c % 256), { s with input := rest })
  | [] => if s.eof then .ok (-1, s) else .blocked

/-- The library call `putc(c, stdout)`. -/
def putc (c : Int) (s : VM) : VM :=
  { s with output := s.output ++ [toUChar c] }

/-- Writes the bytes of a string literal (`printf` without conversions). -/
def print (str : List Nat) (s : VM) : VM :=
  { s with output := s.output ++ str }

/-- Embeds `mem_read` (vm.c:166-179). -/
def mem_read (s : VM) (address : Nat) : Result (Nat × VM) :=
  let polled : Result VM :=
    if address = KBSR then
      if check_key s then
        match getchar { s with memory := upd s.memory KBSR (0x1 <<< 15) } with
        | .ok (c, s1) => .ok { s1 with memory := upd s1.memory KBDR (toU16 c) }
        | .abort => .abort
        | .fault => .fault
        | .diverge => .diverge
        | .blocked => .blocked
      else
        .ok { s with memory := upd s.memory KBSR 0 }
    else
      .ok s
  match polled with
  | .ok s1 => if address < MEMORY_LEN then .ok (s1.memory address, s1) else .fault
  | .abort => .abort
  | .fault => .fault
  | .diverge => .diverge
  | .blocked => .blocked

/-- Store `memory[address] = v` of the ST, STI and STR cases, with the index
checked against the array length. -/
def mem_write (s : VM) (address v : Nat) : Result VM :=
  if address < MEMORY_LEN then .ok { s with memory := upd s.memory address v } else .fault

/-! ## The trap routines with loops -/

/-- Loop of `TRAP_PUTS` (vm.c:402-404), `adr` being a `size_t` that is never
truncated.  Each iteration advances `adr`, and `memory[adr]` is outside the
array from `adr = MEMORY_LEN` on, so `MEMORY_LEN + 1 - adr` iterations always
reach an exit; the first argument counts them down. -/
def puts_loop (memory : Nat → Nat) : Nat → Nat → VM → Result VM
  | 0, _, _ => .fault
  | n + 1, adr, s =>
    if adr < MEMORY_LEN then
      if memory adr ≠ 0 then
        puts_loop memory n (adr + 1) (putc (toChar (Int.ofNat (memory adr))) s)
      else
        .ok s
    else
      .fault

/-- Loop of `TRAP_PUTSP` (vm.c:423-427).  `adr++` sits inside the `if`: when a
nonzero word has a zero high byte the iteration leaves `adr` and `memory` as
they were, so the same iteration repeats for ever (`Result.diverge`).
Otherwise `adr` advances and the count argument works as in `puts_loop`. -/
def putsp_loop (memory : Nat → Nat) : Nat → Nat → VM → Result VM
  | 0, _, _ => .fault
  | n + 1, adr, s =>
    if adr < MEMORY_LEN then
      if memory adr ≠ 0 then
        let s1 := putc (Int.ofNat (memory adr &&& 0xFF)) s
        if memory adr >>> 8 ≠ 0 then
          putsp_loop memory n (adr + 1) (putc (Int.ofNat (memory adr >>> 8)) s1)
        else
          .diverge
      else
        .ok s
    else
      .fault

/-- Bytes of the prompt `"Enter a character: "` of `TRAP_IN`. -/
def prompt_IN : List Nat := "Enter a character: ".toList.map Char.toNat

/-- Bytes written by `puts("HALT")`: the string and a newline. -/
def text_HALT : List Nat := "HALT\n".toList.map Char.toNat

/-! ## One iteration of the loop of `main` -/

/-- The fetch `reg[IR] = mem_read(reg[PC]++)` (vm.c:235): the argument is the
old program counter, the increment is stored before `mem_read` runs. -/
def fetch (s : VM) : Result VM :=
  let pc := s.reg PC
  let s1 := { s with reg := upd s.reg PC ((pc + 1) % 65536) }
  match mem_read s1 pc with
  | .ok (v, s2) => .ok { s2 with reg := upd s2.reg IR v }
  | .abort => .abort
  | .fault => .fault
  | .diverge => .diverge
  | .blocked => .blocked

/-- The `switch (reg[IR] & 0xFF)` of `case OP_TRAP` (vm.c:389-437); a vector
matching no case falls out of the switch. -/
def trap (s : VM) : Result VM :=
  match s.reg IR &&& 0xFF with
  | 0x20 =>
    match getchar s with
    | .ok (c, s1) => .ok { s1 with reg := upd s1.reg R0 (toU16 c) }
    | .abort => .abort
    | .fault => .fault
    | .diverge => .diverge
    | .blocked => .blocked
  | 0x21 => .ok (putc (toChar (Int.ofNat (s.reg R0))) s)
  | 0x22 => puts_loop s.memory (MEMORY_LEN + 1 - s.reg R0) (s.reg R0) s
  | 0x23 =>
    match getchar (print prompt_IN s) with
    | .ok (c, s1) =>
      let s2 := putc (toChar c) s1
      .ok { s2 with reg := upd s2.reg R0 (toU16 (toChar c)) }
    | .abort => .abort
    | .fault => .fault
    | .diverge => .diverge
    | .blocked => .blocked
  | 0x24 => putsp_loop s.memory (MEMORY_LEN + 1 - s.reg R0) (s.reg R0) s
  | 0x25 => .ok { print text_HALT s with running := false }
  | _ => .ok s

/-- The `switch (op)` of `main` (vm.c:236-443), run on the state left by the
fetch. -/
def execute (s : VM) : Result VM :=
  let ir := s.reg IR
  match ir >>> 12 with
  | 1 =>
    let dr := (ir >>> 9) &&& 0x7
    let sr1 := (ir >>> 6) &&& 0x7
    let mode := (ir >>> 5) &&& 0x1
    let reg1 :=
      if mode ≠ 0 then
        let imm5 := sign_ext (ir &&& 0x1F) 5
        upd s.reg dr ((s.reg sr1 + imm5) % 65536)
      else
        let sr2 := ir &&& 0x7
        upd s.reg dr ((s.reg sr1 + s.reg sr2) % 65536)
    .ok { s with reg := update_flags reg1 dr }
  | 5 =>
    let dr := (ir >>> 9) &&& 0x7
    let sr1 := (ir >>> 6) &&& 0x7
    let mode := (ir >>> 5) &&& 0x1
    let reg1 :=
      if mode ≠ 0 then
        let imm5 := sign_ext (ir &&& 0x1F) 5
        upd s.reg dr (s.reg sr1 &&& imm5)
      else
        let sr2 := ir &&& 0x7
        upd s.reg dr (s.reg sr1 &&& s.reg sr2)
    .ok { s with reg := update_flags reg1 dr }
  | 9 =>
    let dr := (ir >>> 9) &&& 0x7
    let sr := (ir >>> 6) &&& 0x7
    let reg1 := upd s.reg dr (toU16 (~~~ (Int.ofNat (s.reg sr))))
    .ok { s with reg := update_flags reg1 dr }
  | 0 =>
    let cond := (ir >>> 9) &&& 0x7
    if cond &&& s.reg R_COND ≠ 0 then
      let pcos := sign_ext (ir &&& 0x1FF) 9
      .ok { s with reg := upd s.reg PC ((s.reg PC + pcos) % 65536) }
    else
      .ok s
  | 12 =>
    let base := (ir >>> 6) &&& 0x7
    .ok { s with reg := upd s.reg PC (s.reg base) }
  | 4 =>
    let reg1 := upd s.reg R7 (s.reg PC)
    let mode := (ir >>> 11) &&& 0x1
    if mode ≠ 0 then
      let pcos := sign_ext (ir &&& 0x7FF) 11
      .ok { s with reg := upd reg1 PC ((reg1 PC + pcos) % 65536) }
    else
      let base := (ir >>> 6) &&& 0x7
      .ok { s with reg := upd reg1 PC (reg1 base) }
  | 2 =>
    let pcos := sign_ext (ir &&& 0x1FF) 9
    let dr := (ir >>> 9) &&& 0x7
    match mem_read s ((s.reg PC + pcos) % 65536) with
    | .ok (v, s1) => .ok { s1 with reg := update_flags (upd s1.reg dr v) dr }
    | .abort => .abort
    | .fault => .fault
    | .diverge => .diverge
    | .blocked => .blocked
  | 10 =>
    let dr := (ir >>> 9) &&& 0x7
    let pcos := sign_ext (ir &&& 0x1FF) 9
    match mem_read s ((s.reg PC + pcos) % 65536) with
    | .ok (a, s1) =>
      match mem_read s1 a with
      | .ok (v, s2) => .ok { s2 with reg := update_flags (upd s2.reg dr v) dr }
      | .abort => .abort
      | .fault => .fault
      | .diverge => .diverge
      | .blocked => .blocked
    | .abort => .abort
    | .fault => .fault
    | .diverge => .diverge
    | .blocked => .blocked
  | 6 =>
    let dr := (ir >>> 9) &&& 0x7
    let base := (ir >>> 6) &&& 0x7
    let os := sign_ext (ir &&& 0x3F) 6
    match mem_read s ((s.reg base + os) % 65536) with
    | .ok (v, s1) => .ok { s1 with reg := update_flags (upd s1.reg dr v) dr }
    | .abort => .abort
    | .fault => .fault
    | .diverge => .diverge
    | .blocked => .blocked
  | 14 =>
    let dr := (ir >>> 9) &&& 0x7
    let pcos := sign_ext (ir &&& 0x1FF) 9
    .ok { s with reg := update_flags (upd s.reg dr ((s.reg PC + pcos) % 65536)) dr }
  | 3 =>
    let sr := (ir >>> 9) &&& 0x7
    let pcos := sign_ext (ir &&& 0x1FF) 9
    mem_write s ((s.reg PC + pcos) % 65536) (s.reg sr)
  | 11 =>
    let sr := (ir >>> 9) &&& 0x7
    let pcos := sign_ext (ir &&& 0x1FF) 9
    match mem_read s ((s.reg PC + pcos) % 65536) with
    | .ok (a, s1) => mem_write s1 a (s1.reg sr)
    | .abort => .abort
    | .fault => .fault
    | .diverge => .diverge
    | .blocked => .blocked
  | 7 =>
    let sr := (ir >>> 9) &&& 0x7
    let base := (ir >>> 6) &&& 0x7
    let os := sign_ext (ir &&& 0x3F) 6
    mem_write s ((s.reg base + os) % 65536) (s.reg sr)
  | 15 => trap s
  | _ => .abort

/-- One pass through the body of `while (running)`: fetch, then dispatch. -/
def step (s : VM) : Result VM :=
  match fetch s with
  | .ok s1 => execute s1
  | .abort => .abort
  | .fault => .fault
  | .diverge => .diverge
  | .blocked => .blocked

/-- The loop `while (running)` of `main`, given a bound on the number of
cycles: the outcome together with the number of cycles executed, or `none`
when the bound is reached with the machine still running. -/
def run : Nat → VM → Option (Result VM × Nat)
  | 0, s => if s.running then none else some (.ok s, 0)
  | n + 1, s =>
    if s.running then
      match step s with
      | .ok s1 => (run n s1).map (fun r => (r.1, r.2 + 1))
      | .abort => some (.abort, 1)
      | .fault => some (.fault, 1)
      | .diverge => some (.diverge, 1)
      | .blocked => some (.blocked, 1)
    else
      some (.ok s, 0)

/-- State of `main` when the loop is entered: the zero-initialised register
array with `reg[PC] = 0x3000`, `running = 1`, the memory left by the image
loader and the console as found. -/
def boot (memory : Nat → Nat) (input : List Nat) (eof : Bool) (output : List Nat) : VM :=
  { reg := upd (fun _ => 0) PC 0x3000
    memory := memory
    input := input
    eof := eof
    output := output
    running := true }

/-- The word the fetch of the next cycle loads into `reg[IR]`, if the fetch
returns. -/
def fetched (s : VM) : Option Nat :=
  match fetch s with
  | .ok s1 => some (s1.reg IR)
  | _ => none

/-- The flag register holds exactly one of the three flag bits. -/
def OneFlag (c : Nat) : Prop := c = POS ∨ c = ZRO ∨ c = NEG

instance (c : Nat) : Decidable (OneFlag c) := by
  unfold OneFlag; infer_instance

/-- The state after `n` passes through the body of `while (running)`, each
pass taken only while `running` is set; an outcome other than a normal return
ends the run. -/
def cycles : Nat → VM → Result VM
  | 0, s => .ok s
  | n + 1, s =>
    if s.running then
      match step s with
      | .ok s1 => cycles n s1
      | .abort => .abort
      | .fault => .fault
      | .diverge => .diverge
      | .blocked => .blocked
    else
      .ok s

/-! ## The image loader -/

/-- Embeds `swap16` (vm.c:115-118): both shifts are computed on `int`, the
result is truncated to `uint16_t` on return. -/
def swap16 (x : Nat) : Nat := ((x <<< 8) ||| (x >>> 8)) % 65536

/-- The value a little-endian host reads from two consecutive file bytes. -/
def host_word (b0 b1 : Nat) : Nat := b0 % 256 + 256 * (b1 % 256)

/-- The call `fread(p, sizeof(uint16_t), count, file)` on the bytes left in the
file: stores whole words from cell `p` on and stops after `count` words or when
fewer than two bytes are left (C leaves the value of a partly read last
element indeterminate; the embedding stores nothing for it). -/
def fread_words (memory : Nat → Nat) : Nat → Nat → List Nat → Nat → Nat
  | 0, _, _ => memory
  | count + 1, p, file =>
    match file with
    | b0 :: b1 :: rest => fread_words (upd memory p (host_word b0 b1)) count (p + 1) rest
    | _ => memory

/-- The loop `while (read-- > 0) { *p = swap16(*p); ++p; }` (vm.c:134-137). -/
def swap_loop (memory : Nat → Nat) : Nat → Nat → Nat → Nat
  | 0, _ => memory
  | read + 1, p => swap_loop (upd memory p (swap16 (memory p))) read (p + 1)

/-- Embeds `read_image_file` (vm.c:121-138) on the bytes of the file; `none`
when the file is too short to hold the origin word.  `fread` returns the
number of whole words stored, the smaller of `max_read` and half the bytes
left; cells `origin .. origin + max_read - 1` all lie inside `memory`. -/
def read_image_file (memory : Nat → Nat) (file : List Nat) : Option (Nat → Nat) :=
  match file with
  | b0 :: b1 :: rest =>
    let origin := swap16 (host_word b0 b1)
    let max_read := (UINT16_MAX - origin) % 65536
    let p := origin
    let read := min max_read (rest.length / 2)
    some (swap_loop (fread_words memory max_read p rest) read p)
  | _ => none

/-- Big-endian bytes of a sequence of 16-bit words: high byte, then low byte. -/
def word_bytes : List Nat → List Nat
  | [] => []
  | w :: ws => w / 256 :: w % 256 :: word_bytes ws

/-- Bytes of an image file: the big-endian origin word followed by the
big-endian program words. -/
def image_bytes (origin : Nat) (words : List Nat) : List Nat :=
  origin / 256 :: origin % 256 :: word_bytes words

/-! ## Basic facts about the embedding -/

theorem upd_same (a : Nat → Nat) (i v : Nat) : upd a i v i = v := by
  simp [upd]

theorem upd_other (a : Nat → Nat) (i v j : Nat) (h : j ≠ i) : upd a i v j = a j := by
  simp [upd, h]

theorem and_seven_le (x : Nat) : x &&& 0x7 ≤ 7 := Nat.and_le_right

theorem update_flags_other (reg : Nat → Nat) (r j : Nat) (h : j ≠ R_COND) :
    update_flags reg r j = reg j := by
  unfold update_flags
  split
  · exact upd_other _ _ _ _ h
  · split <;> exact upd_other _ _ _ _ h

theorem update_flags_cond (reg : Nat → Nat) (r : Nat) :
    update_flags reg r R_COND =
      if reg r = 0 then ZRO else if 32768 ≤ reg r then NEG else POS := by
  unfold update_flags
  rw [Nat.shiftRight_eq_div_pow]
  by_cases h0 : reg r = 0
  · simp [h0, upd]
  · by_cases h1 : 32768 ≤ reg r
    · have h2 : reg r / 32768 ≠ 0 := by omega
      simp [h0, h1, h2, upd]
    · have h2 : reg r / 32768 = 0 := by omega
      simp [h0, h1, h2, upd]

theorem update_flags_oneFlag (reg : Nat → Nat) (r : Nat) :
    OneFlag (update_flags reg r R_COND) := by
  rw [update_flags_cond]
  unfold OneFlag
  split
  · simp
  · split <;> simp

theorem sign_ext_of_lt (x b : Nat) (hb1 : 1 ≤ b) (hb : b ≤ 16) (hx : x < 2 ^ b) :
    sign_ext x b = if x < 2 ^ (b - 1) then x else x + 65536 - 2 ^ b := by
  unfold sign_ext
  have hor : x ||| (0xFFFF <<< b) = 0xFFFF <<< b + x := by
    rw [Nat.or_comm, Nat.shiftLeft_eq, Nat.mul_comm]
    exact (Nat.mul_add_lt_is_or hx _).symm
  rw [hor, Nat.shiftRight_eq_div_pow, Nat.shiftLeft_eq]
  interval_cases b <;> simp only [Nat.reducePow, Nat.reduceSub] at hx ⊢ <;>
    split <;> split <;> omega

theorem mem_read_ok {s s1 : VM} {a v : Nat} (h : mem_read s a = .ok (v, s1)) :
    a < MEMORY_LEN ∧ v = s1.memory a ∧ s1.reg = s.reg ∧ s1.running = s.running ∧
      s1.output = s.output ∧ (a ≠ KBSR → s1 = s) := by
  unfold mem_read at h
  by_cases ha : a = KBSR
  · subst ha
    simp only [if_true] at h
    cases hk : check_key s
    · simp [hk] at h
      obtain ⟨rfl, rfl⟩ := h
      simp
      decide
    · simp only [hk, if_true] at h
      unfold getchar at h
      cases hi : s.input with
      | nil =>
        simp only [hi] at h
        cases he : s.eof
        · simp [he] at h
        · simp [he] at h
          obtain ⟨rfl, rfl⟩ := h
          simp
          decide
      | cons c rest =>
        simp [hi] at h
        obtain ⟨rfl, rfl⟩ := h
        simp
        decide
  · simp only [ha, if_false] at h
    by_cases hlt : a < MEMORY_LEN
    · simp [hlt] at h
      obtain ⟨rfl, rfl⟩ := h
      simp [hlt]
    · simp [hlt] at h

theorem mem_read_plain (s : VM) (a : Nat) (ha : a ≠ KBSR) (hlt : a < MEMORY_LEN) :
    mem_read s a = .ok (s.memory a, s) := by
  unfold mem_read
  simp [ha, hlt]

theorem fetch_ok {s s1 : VM} (h : fetch s = .ok s1) :
    s.reg PC < MEMORY_LEN ∧ s1.reg PC = s.reg PC + 1 ∧
      (∀ r, r ≠ PC → r ≠ IR → s1.reg r = s.reg r) ∧ s1.running = s.running ∧
      s1.output = s.output ∧
      (s.reg PC ≠ KBSR → s1.memory = s.memory ∧ s1.input = s.input ∧ s1.eof = s.eof ∧
        s1.reg IR = s.memory (s.reg PC)) := by
  unfold fetch at h
  simp only at h
  cases hm : mem_read { s with reg := upd s.reg PC ((s.reg PC + 1) % 65536) } (s.reg PC) with
  | ok p =>
    obtain ⟨v, s2⟩ := p
    rw [hm] at h
    simp only [Result.ok.injEq] at h
    subst h
    obtain ⟨hlt, hv, hreg, hrun, hout, hplain⟩ := mem_read_ok hm
    have hpc : (s.reg PC + 1) % 65536 = s.reg PC + 1 := by
      apply Nat.mod_eq_of_lt; simp only [MEMORY_LEN, UINT16_MAX] at hlt; omega
    refine ⟨hlt, ?_, ?_, hrun, hout, ?_⟩
    · simp [hreg, upd, hpc]
    · intro r h1 h2
      simp [hreg, upd, h1, h2]
    · intro hk
      have := hplain hk
      subst this
      simp [upd, hv]
  | abort => rw [hm] at h; simp at h
  | fault => rw [hm] at h; simp at h
  | diverge => rw [hm] at h; simp at h
  | blocked => rw [hm] at h; simp at h

theorem fetched_eq {s : VM} {w : Nat} (h : fetched s = some w) :
    ∃ s1, fetch s = .ok s1 ∧ s1.reg IR = w := by
  unfold fetched at h
  cases hf : fetch s with
  | ok s1 => rw [hf] at h; simp at h; exact ⟨s1, rfl, h⟩
  | abort => rw [hf] at h; simp at h
  | fault => rw [hf] at h; simp at h
  | diverge => rw [hf] at h; simp at h
  | blocked => rw [hf] at h; simp at h

theorem step_of_fetch {s s1 : VM} (h : fetch s = .ok s1) : step s = execute s1 := by
  unfold step; rw [h]

/-! ## Verified claims -/

/-- C1: for every 16-bit value `v` and every width `b` with `1 ≤ b ≤ 16`,
`sign_ext (v & (2^b - 1), b)` is the 16-bit two-complement encoding of the low
`b` bits of `v` read as a signed `b`-bit integer: with `x = v mod 2^b` the
result is `x` when `x < 2^(b-1)` and `(x - 2^b) mod 2^16` otherwise. -/
theorem sign_ext_twos_complement (v b : Nat) (hv : v < 65536) (hb1 : 1 ≤ b) (hb : b ≤ 16) :
    ((sign_ext (v &&& (2 ^ b - 1)) b : Nat) : Int) =
      if v % 2 ^ b < 2 ^ (b - 1) then ((v % 2 ^ b : Nat) : Int)
      else (((v % 2 ^ b : Nat) : Int) - 2 ^ b) % 2 ^ 16 := by
  have _ := hv
  rw [Nat.and_pow_two_sub_one_eq_mod]
  have hx : v % 2 ^ b < 2 ^ b := Nat.mod_lt _ (by positivity)
  rw [sign_ext_of_lt _ b hb1 hb hx]
  generalize v % 2 ^ b = x at hx ⊢
  interval_cases b <;> simp only [Nat.reducePow, Nat.reduceSub] at hx ⊢ <;> split <;> omega

/-- Witness of C1 at `v = 0xFFF0`, `b = 5`: the low five bits `10000` read as a
signed integer are `-16`, encoded as `0xFFF0`. -/
theorem sign_ext_twos_complement_witness :
    ((sign_ext (0xFFF0 &&& (2 ^ 5 - 1)) 5 : Nat) : Int) =
      if 0xFFF0 % 2 ^ 5 < 2 ^ (5 - 1) then ((0xFFF0 % 2 ^ 5 : Nat) : Int)
      else (((0xFFF0 % 2 ^ 5 : Nat) : Int) - 2 ^ 5) % 2 ^ 16 :=
  sign_ext_twos_complement 0xFFF0 5 (by decide) (by decide) (by decide)

/-- C2: for every register file and every general-purpose register index
`r ≤ 7` holding a 16-bit word, after `update_flags(r)` the condition register
holds exactly one of ZRO, NEG, POS: ZRO iff `reg[r] = 0`, NEG iff bit 15 of
`reg[r]` is 1, POS otherwise; and every other register is unchanged. -/
theorem update_flags_spec (reg : Nat → Nat) (r : Nat) (hr : r ≤ 7) (hw : reg r < 65536) :
    OneFlag (update_flags reg r R_COND) ∧
      (update_flags reg r R_COND = ZRO ↔ reg r = 0) ∧
      (update_flags reg r R_COND = NEG ↔ reg r / 2 ^ 15 % 2 = 1) ∧
      (update_flags reg r R_COND = POS ↔ reg r ≠ 0 ∧ reg r / 2 ^ 15 % 2 = 0) ∧
      (∀ j, j ≠ R_COND → update_flags reg r j = reg j) := by
  have _ := hr
  refine ⟨update_flags_oneFlag reg r, ?_, ?_, ?_, fun j hj => update_flags_other reg r j hj⟩ <;>
    rw [update_flags_cond] <;> simp only [ZRO, NEG, POS] <;> split_ifs <;> omega

/-- Witness of C2: register R3 holding `0x8001` gives NEG. -/
theorem update_flags_spec_witness :
    OneFlag (update_flags (upd (fun _ => 0) 3 0x8001) 3 R_COND) ∧
      (update_flags (upd (fun _ => 0) 3 0x8001) 3 R_COND = ZRO ↔
        upd (fun _ => 0) 3 0x8001 3 = 0) ∧
      (update_flags (upd (fun _ => 0) 3 0x8001) 3 R_COND = NEG ↔
        upd (fun _ => 0) 3 0x8001 3 / 2 ^ 15 % 2 = 1) ∧
      (update_flags (upd (fun _ => 0) 3 0x8001) 3 R_COND = POS ↔
        upd (fun _ => 0) 3 0x8001 3 ≠ 0 ∧ upd (fun _ => 0) 3 0x8001 3 / 2 ^ 15 % 2 = 0) ∧
      (∀ j, j ≠ R_COND → update_flags (upd (fun _ => 0) 3 0x8001) 3 j =
        upd (fun _ => 0) 3 0x8001 j) :=
  update_flags_spec (upd (fun _ => 0) 3 0x8001) 3 (by decide) (by decide)

theorem execute_add (s : VM) (h : s.reg IR >>> 12 = OP_ADD) :
    execute s = .ok { s with reg := (update_flags
      (upd s.reg ((s.reg IR >>> 9) &&& 0x7)
        ((s.reg ((s.reg IR >>> 6) &&& 0x7) +
          (if (s.reg IR >>> 5) &&& 1 = 1 then sign_ext (s.reg IR &&& 0x1F) 5
           else s.reg (s.reg IR &&& 0x7))) % 65536))
      ((s.reg IR >>> 9) &&& 0x7)) } := by
  unfold execute
  simp only [h]
  by_cases hm : (s.reg IR >>> 5) &&& 1 = 1
  · simp [hm]
  · have : (s.reg IR >>> 5) &&& 1 = 0 := by
      rw [Nat.and_one_is_mod] at hm ⊢; omega
    simp [this]

/-- C3: for every machine state whose fetch loads an ADD word `w`, one cycle
completes and leaves `DR = (SR1 + operand) mod 2^16`, the operand being
`sign_ext(imm5, 5)` when bit 5 of `w` is 1 and the value of register SR2 when
it is 0, both read from the registers as they were before the cycle; the
condition register then matches the new DR (ZRO for 0, NEG for bit 15 set, POS
otherwise). -/
theorem add_cycle (s : VM) (w : Nat) (hf : fetched s = some w) (hop : w >>> 12 = OP_ADD) :
    ∃ s', step s = .ok s' ∧
      s'.reg ((w >>> 9) &&& 0x7) =
        (s.reg ((w >>> 6) &&& 0x7) +
          (if (w >>> 5) &&& 1 = 1 then sign_ext (w &&& 0x1F) 5
           else s.reg (w &&& 0x7))) % 65536 ∧
      s'.reg R_COND =
        (if s'.reg ((w >>> 9) &&& 0x7) = 0 then ZRO
         else if 32768 ≤ s'.reg ((w >>> 9) &&& 0x7) then NEG else POS) := by
  obtain ⟨s1, hf1, hir⟩ := fetched_eq hf
  obtain ⟨_, _, hreg, _⟩ := fetch_ok hf1
  have hgp : ∀ x : Nat, s1.reg (x &&& 0x7) = s.reg (x &&& 0x7) := by
    intro x
    have := and_seven_le x
    apply hreg <;> simp only [PC, IR] <;> omega
  have hdr : (w >>> 9) &&& 0x7 ≠ R_COND := by
    have := and_seven_le (w >>> 9)
    simp only [R_COND]; omega
  rw [step_of_fetch hf1, execute_add s1 (by rw [hir]; exact hop)]
  refine ⟨_, rfl, ?_, ?_⟩
  · simp only [hir]
    rw [update_flags_other _ _ _ hdr, upd_same, hgp, hgp]
  · simp only [hir]
    rw [update_flags_cond, update_flags_other _ _ _ hdr, upd_same]

/-- Witness of C3, the round trip of the specification: from `R0 = 0` and
`PC = 0x3000` with the word `0x1025` (ADD R0, R0, #5) at `0x3000`, one cycle
yields `R0 = 5` and the flag POS. -/
theorem add_cycle_witness :
    ∃ s', step (boot (upd (fun _ => 0) 0x3000 0x1025) [] false []) = .ok s' ∧
      s'.reg R0 = 5 ∧ s'.reg R_COND = POS := by
  obtain ⟨s', h1, h2, h3⟩ :=
    add_cycle (boot (upd (fun _ => 0) 0x3000 0x1025) [] false []) 0x1025 (by rfl) (by decide)
  refine ⟨s', h1, ?_, ?_⟩
  · have e : s'.reg R0 = 5 := by
      simpa [boot, upd, sign_ext] using h2
    exact e
  · have e : s'.reg R0 = 5 := by
      simpa [boot, upd, sign_ext] using h2
    have h4 : s'.reg R_COND = if s'.reg R0 = 0 then ZRO else if 32768 ≤ s'.reg R0 then NEG else POS := by
      simpa using h3
    rw [h4, e]; decide

/-! ## Frame lemmas for the instruction cases -/

theorem mem_read_cases (s : VM) (a : Nat) :
    mem_read s a = .fault ∨ ∃ v s1, mem_read s a = .ok (v, s1) := by
  unfold mem_read
  by_cases ha : a = KBSR
  · subst ha
    right
    have hk : KBSR < MEMORY_LEN := by decide
    unfold getchar check_key
    cases hi : s.input with
    | nil =>
      cases he : s.eof
      · simp [hi, he, hk]
      · simp [hi, he, hk]
    | cons c rest => simp [hi, hk]
  · by_cases hlt : a < MEMORY_LEN
    · right; simp [ha, hlt]
    · left; simp [ha, hlt]

theorem mem_write_cases (s : VM) (a v : Nat) :
    mem_write s a v = .fault ∨
      ∃ s1, mem_write s a v = .ok s1 ∧ s1.reg = s.reg ∧ s1.running = s.running := by
  unfold mem_write
  by_cases hlt : a < MEMORY_LEN
  · right; simp [hlt]
  · left; simp [hlt]

theorem puts_loop_frame (memory : Nat → Nat) (n : Nat) :
    ∀ (adr : Nat) (s s' : VM), puts_loop memory n adr s = .ok s' →
      s'.reg = s.reg ∧ s'.memory = s.memory ∧ s'.input = s.input ∧ s'.eof = s.eof ∧
        s'.running = s.running := by
  induction n with
  | zero => intro adr s s' h; simp [puts_loop] at h
  | succ n ih =>
    intro adr s s' h
    unfold puts_loop at h
    by_cases hlt : adr < MEMORY_LEN
    · by_cases hz : memory adr = 0
      · simp [hlt, hz] at h
        subst h
        simp
      · simp only [hlt, if_true, ne_eq, hz, not_false_eq_true] at h
        have := ih _ _ _ h
        simpa [putc] using this
    · simp [hlt] at h

theorem putsp_loop_frame (memory : Nat → Nat) (n : Nat) :
    ∀ (adr : Nat) (s s' : VM), putsp_loop memory n adr s = .ok s' →
      s'.reg = s.reg ∧ s'.memory = s.memory ∧ s'.input = s.input ∧ s'.eof = s.eof ∧
        s'.running = s.running := by
  induction n with
  | zero => intro adr s s' h; simp [putsp_loop] at h
  | succ n ih =>
    intro adr s s' h
    unfold putsp_loop at h
    by_cases hlt : adr < MEMORY_LEN
    · by_cases hz : memory adr = 0
      · simp [hlt, hz] at h
        subst h
        simp
      · by_cases hh : memory adr >>> 8 = 0
        · simp [hlt, hz, hh] at h
        · simp only [hlt, if_true, ne_eq, hz, not_false_eq_true, hh] at h
          have := ih _ _ _ h
          simpa [putc] using this
    · simp [hlt] at h

/-- A trap that returns leaves every register other than R0 and the whole
memory as they were. -/
theorem trap_frame {s s' : VM} (h : trap s = .ok s') :
    (∀ r, r ≠ R0 → s'.reg r = s.reg r) ∧ s'.memory = s.memory := by
  unfold trap at h
  split at h
  · unfold getchar at h
    cases hi : s.input with
    | nil =>
      cases he : s.eof
      · simp [hi, he] at h
      · simp [hi, he] at h
        subst h
        exact ⟨fun r hr => by simp [upd, hr], rfl⟩
    | cons c rest =>
      simp [hi] at h
      subst h
      exact ⟨fun r hr => by simp [upd, hr], rfl⟩
  · simp at h
    subst h
    exact ⟨fun r _ => rfl, rfl⟩
  · obtain ⟨h1, h2, _⟩ := puts_loop_frame _ _ _ _ _ h
    exact ⟨fun r _ => by rw [h1], h2⟩
  · unfold getchar at h
    cases hi : (print prompt_IN s).input with
    | nil =>
      cases he : (print prompt_IN s).eof
      · simp [hi, he] at h
      · simp [hi, he] at h
        subst h
        exact ⟨fun r hr => by simp [upd, hr, putc, print], rfl⟩
    | cons c rest =>
      simp [hi] at h
      subst h
      exact ⟨fun r hr => by simp [upd, hr, putc, print], rfl⟩
  · obtain ⟨h1, h2, _⟩ := putsp_loop_frame _ _ _ _ _ h
    exact ⟨fun r _ => by rw [h1], h2⟩
  · simp at h
    subst h
    exact ⟨fun r _ => rfl, rfl⟩
  · simp at h
    subst h
    exact ⟨fun r _ => rfl, rfl⟩

/-! ## The instruction cases, one lemma each -/

theorem execute_alu_flag (s : VM)
    (h : s.reg IR >>> 12 = OP_ADD ∨ s.reg IR >>> 12 = OP_AND ∨ s.reg IR >>> 12 = OP_NOT ∨
      s.reg IR >>> 12 = OP_LEA) :
    ∃ s', execute s = .ok s' ∧ OneFlag (s'.reg R_COND) := by
  rcases h with h | h | h | h <;>
    (unfold execute; simp only [h]; exact ⟨_, rfl, update_flags_oneFlag _ _⟩)

theorem execute_load_flag (s : VM)
    (h : s.reg IR >>> 12 = OP_LD ∨ s.reg IR >>> 12 = OP_LDI ∨ s.reg IR >>> 12 = OP_LDR) :
    execute s = .fault ∨ ∃ s', execute s = .ok s' ∧ OneFlag (s'.reg R_COND) := by
  rcases h with h | h | h
  · unfold execute; simp only [h]
    rcases mem_read_cases s ((s.reg PC + sign_ext (s.reg IR &&& 0x1FF) 9) % 65536) with
      hm | ⟨v, s1, hm⟩
    · left; rw [hm]
    · right; rw [hm]; exact ⟨_, rfl, update_flags_oneFlag _ _⟩
  · unfold execute; simp only [h]
    rcases mem_read_cases s ((s.reg PC + sign_ext (s.reg IR &&& 0x1FF) 9) % 65536) with
      hm | ⟨a, s1, hm⟩
    · left; rw [hm]
    · rw [hm]
      rcases mem_read_cases s1 a with hm2 | ⟨v, s2, hm2⟩
      · left; simp only [hm2]
      · right; simp only [hm2]; exact ⟨_, rfl, update_flags_oneFlag _ _⟩
  · unfold execute; simp only [h]
    rcases mem_read_cases s
      ((s.reg ((s.reg IR >>> 6) &&& 0x7) + sign_ext (s.reg IR &&& 0x3F) 6) % 65536) with
      hm | ⟨v, s1, hm⟩
    · left; rw [hm]
    · right; rw [hm]; exact ⟨_, rfl, update_flags_oneFlag _ _⟩

theorem execute_jsr (s : VM) (h : s.reg IR >>> 12 = OP_JSR) :
    execute s = .ok { s with reg := (upd (upd s.reg R7 (s.reg PC)) PC
      (if (s.reg IR >>> 11) &&& 1 = 1 then
        (s.reg PC + sign_ext (s.reg IR &&& 0x7FF) 11) % 65536
       else upd s.reg R7 (s.reg PC) ((s.reg IR >>> 6) &&& 0x7))) } := by
  unfold execute
  simp only [h]
  by_cases hm : (s.reg IR >>> 11) &&& 1 = 1
  · simp [hm, upd]
  · have : (s.reg IR >>> 11) &&& 1 = 0 := by
      rw [Nat.and_one_is_mod] at hm ⊢; omega
    simp [this]

theorem execute_br (s : VM) (h : s.reg IR >>> 12 = OP_BR) :
    execute s = .ok (if ((s.reg IR >>> 9) &&& 0x7) &&& s.reg R_COND ≠ 0 then
      { s with reg := upd s.reg PC ((s.reg PC + sign_ext (s.reg IR &&& 0x1FF) 9) % 65536) }
      else s) := by
  unfold execute
  simp only [h]
  split <;> rfl

theorem execute_jmp (s : VM) (h : s.reg IR >>> 12 = OP_JMP) :
    execute s = .ok { s with reg := upd s.reg PC (s.reg ((s.reg IR >>> 6) &&& 0x7)) } := by
  unfold execute
  simp only [h]

theorem execute_trap (s : VM) (h : s.reg IR >>> 12 = OP_TRAP) : execute s = trap s := by
  unfold execute
  simp only [h]

theorem execute_store_frame (s : VM)
    (h : s.reg IR >>> 12 = OP_ST ∨ s.reg IR >>> 12 = OP_STI ∨ s.reg IR >>> 12 = OP_STR) :
    execute s = .fault ∨
      ∃ s', execute s = .ok s' ∧ s'.reg = s.reg ∧ s'.running = s.running := by
  rcases h with h | h | h
  · unfold execute; simp only [h]
    exact mem_write_cases _ _ _
  · unfold execute; simp only [h]
    rcases mem_read_cases s ((s.reg PC + sign_ext (s.reg IR &&& 0x1FF) 9) % 65536) with
      hm | ⟨a, s1, hm⟩
    · left; rw [hm]
    · rw [hm]
      obtain ⟨_, _, hreg, hrun, _⟩ := mem_read_ok hm
      rcases mem_write_cases s1 a (s1.reg ((s.reg IR >>> 9) &&& 0x7)) with hw | ⟨s2, hw, h1, h2⟩
      · left; simpa using hw
      · right; exact ⟨s2, by simpa using hw, by rw [h1, hreg], by rw [h2, hrun]⟩
  · unfold execute; simp only [h]
    exact mem_write_cases _ _ _

theorem fetch_kbsr {s s1 : VM} (h : fetch s = .ok s1) (hpc : s.reg PC = KBSR) :
    s1.reg IR = 0x8000 ∨ s1.reg IR = 0 := by
  unfold fetch at h
  simp only [hpc] at h
  unfold mem_read getchar check_key at h
  have hk : KBSR < MEMORY_LEN := by decide
  cases hi : s.input with
  | nil =>
    cases he : s.eof
    · simp [hi, he, hk] at h
      subst h
      right; simp [upd]
    · simp [hi, he, hk] at h
      subst h
      left; simp [upd]
  | cons c rest =>
    simp [hi, hk] at h
    subst h
    left; simp [upd]

/-- A fetch that loads a word whose opcode is neither BR nor RTI did not read
the keyboard status cell, so it left memory and console as they were. -/
theorem fetch_plain {s s1 : VM} (h : fetch s = .ok s1) (h0 : s1.reg IR >>> 12 ≠ OP_BR)
    (h8 : s1.reg IR >>> 12 ≠ OP_RTI) :
    s1.memory = s.memory ∧ s1.input = s.input ∧ s1.eof = s.eof ∧
      s1.reg IR = s.memory (s.reg PC) := by
  obtain ⟨_, _, _, _, _, hp⟩ := fetch_ok h
  apply hp
  intro hpc
  rcases fetch_kbsr h hpc with e | e
  · rw [e] at h8; exact h8 (by decide)
  · rw [e] at h0; exact h0 (by decide)

theorem getchar_cases (s : VM) : getchar s = .blocked ∨ ∃ c s1, getchar s = .ok (c, s1) := by
  unfold getchar
  cases s.input with
  | nil => cases s.eof <;> simp
  | cons c rest => simp

theorem trap_read_cases (s : VM)
    (h : s.reg IR &&& 0xFF = TRAP_GETC ∨ s.reg IR &&& 0xFF = TRAP_IN) :
    trap s = .blocked ∨ ∃ s', trap s = .ok s' := by
  rcases h with h | h
  · unfold trap; simp only [h]
    rcases getchar_cases s with hg | ⟨c, s1, hg⟩
    · left; rw [hg]
    · right; rw [hg]; exact ⟨_, rfl⟩
  · unfold trap; simp only [h]
    rcases getchar_cases (print prompt_IN s) with hg | ⟨c, s1, hg⟩
    · left; rw [hg]
    · right; rw [hg]; exact ⟨_, rfl⟩

/-- C4, the claim as stated, fails: from the boot state with the word `0x4800`
(JSR with offset 0) at `0x3000`, one cycle writes R7 and leaves the condition
register at 0, which is none of the three flag bits. -/
theorem jsr_leaves_cond_zero :
    fetched (boot (upd (fun _ => 0) 0x3000 0x4800) [] false []) = some 0x4800 ∧
      ∃ s', step (boot (upd (fun _ => 0) 0x3000 0x4800) [] false []) = .ok s' ∧
        s'.reg R7 = 0x3001 ∧ s'.reg R_COND = 0 ∧ ¬ OneFlag (s'.reg R_COND) :=
  ⟨by rfl, _, rfl, by decide, by decide, by decide⟩

/-- C4 as amended: for every machine state, a cycle that fetches ADD, AND, NOT
or LEA completes with exactly one flag bit in the condition register; a cycle
that fetches LD, LDI or LDR either indexes memory outside the array or
completes with exactly one flag bit; a cycle that fetches JSR/JSRR completes
and leaves the condition register as it was; a GETC or IN trap either waits
for input for ever or completes and leaves the condition register as it
was. -/
theorem flags_after_register_write (s : VM) (w : Nat) (hf : fetched s = some w) :
    ((w >>> 12 = OP_ADD ∨ w >>> 12 = OP_AND ∨ w >>> 12 = OP_NOT ∨ w >>> 12 = OP_LEA) →
        ∃ s', step s = .ok s' ∧ OneFlag (s'.reg R_COND)) ∧
      ((w >>> 12 = OP_LD ∨ w >>> 12 = OP_LDI ∨ w >>> 12 = OP_LDR) →
        step s = .fault ∨ ∃ s', step s = .ok s' ∧ OneFlag (s'.reg R_COND)) ∧
      (w >>> 12 = OP_JSR → ∃ s', step s = .ok s' ∧ s'.reg R_COND = s.reg R_COND) ∧
      ((w >>> 12 = OP_TRAP ∧ (w &&& 0xFF = TRAP_GETC ∨ w &&& 0xFF = TRAP_IN)) →
        step s = .blocked ∨ ∃ s', step s = .ok s' ∧ s'.reg R_COND = s.reg R_COND) := by
  obtain ⟨s1, hf1, hir⟩ := fetched_eq hf
  obtain ⟨_, _, hreg, _⟩ := fetch_ok hf1
  have hc : s1.reg R_COND = s.reg R_COND := hreg _ (by decide) (by decide)
  rw [step_of_fetch hf1]
  subst hir
  refine ⟨execute_alu_flag s1, execute_load_flag s1, ?_, ?_⟩
  · intro h
    rw [execute_jsr s1 h]
    exact ⟨_, rfl, by simp [upd, hc]⟩
  · rintro ⟨h, hv⟩
    rw [execute_trap s1 h]
    rcases trap_read_cases s1 hv with hb | ⟨s', hs'⟩
    · left; exact hb
    · right
      refine ⟨s', hs', ?_⟩
      rw [(trap_frame hs').1 _ (by decide), hc]

/-- Witness of the amended C4 on the ADD word `0x1025` at `0x3000`. -/
theorem flags_after_register_write_witness :
    ∃ s', step (boot (upd (fun _ => 0) 0x3000 0x1025) [] false []) = .ok s' ∧
      OneFlag (s'.reg R_COND) :=
  (flags_after_register_write (boot (upd (fun _ => 0) 0x3000 0x1025) [] false []) 0x1025
    (by rfl)).1 (by decide)

theorem mem_write_inside (s : VM) (a v : Nat) (h : a < MEMORY_LEN) :
    mem_write s a v = .ok { s with memory := upd s.memory a v } := by
  unfold mem_write
  simp [h]

/-- C5: for every machine state and every fetched instruction that writes no
general-purpose register (BR, JMP, ST, STI, STR and the OUT, PUTS, PUTSP and
HALT traps), the condition register after the cycle equals the condition
register before it.  BR, JMP, OUT and HALT always complete the cycle; ST and
STR complete it whenever the target address is inside the memory array. -/
theorem cond_unchanged (s : VM) (w : Nat) (hf : fetched s = some w)
    (hin : w >>> 12 = OP_BR ∨ w >>> 12 = OP_JMP ∨ w >>> 12 = OP_ST ∨ w >>> 12 = OP_STI ∨
      w >>> 12 = OP_STR ∨
      (w >>> 12 = OP_TRAP ∧ (w &&& 0xFF = TRAP_OUT ∨ w &&& 0xFF = TRAP_PUTS ∨
        w &&& 0xFF = TRAP_PUTSP ∨ w &&& 0xFF = TRAP_HALT))) :
    (∀ s', step s = .ok s' → s'.reg R_COND = s.reg R_COND) ∧
      ((w >>> 12 = OP_BR ∨ w >>> 12 = OP_JMP ∨
          (w >>> 12 = OP_TRAP ∧ (w &&& 0xFF = TRAP_OUT ∨ w &&& 0xFF = TRAP_HALT))) →
        ∃ s', step s = .ok s') ∧
      (w >>> 12 = OP_ST →
        (s.reg PC + 1 + sign_ext (w &&& 0x1FF) 9) % 65536 < MEMORY_LEN →
        ∃ s', step s = .ok s') ∧
      (w >>> 12 = OP_STR →
        (s.reg ((w >>> 6) &&& 0x7) + sign_ext (w &&& 0x3F) 6) % 65536 < MEMORY_LEN →
        ∃ s', step s = .ok s') := by
  obtain ⟨s1, hf1, hir⟩ := fetched_eq hf
  obtain ⟨_, hpc, hreg, _⟩ := fetch_ok hf1
  have hc : s1.reg R_COND = s.reg R_COND := hreg _ (by decide) (by decide)
  have hgp : ∀ x : Nat, s1.reg (x &&& 0x7) = s.reg (x &&& 0x7) := by
    intro x
    have := and_seven_le x
    apply hreg <;> simp only [PC, IR] <;> omega
  rw [step_of_fetch hf1]
  subst hir
  refine ⟨?_, ?_, ?_, ?_⟩
  · intro s' hs'
    rcases hin with h | h | h | h | h | ⟨h, _⟩
    · rw [execute_br s1 h] at hs'
      simp only [Result.ok.injEq] at hs'
      subst hs'
      split
      · simp [upd, hc]
      · exact hc
    · rw [execute_jmp s1 h] at hs'
      simp only [Result.ok.injEq] at hs'
      subst hs'
      simp [upd, hc]
    · rcases execute_store_frame s1 (Or.inl h) with hx | ⟨s2, hx, h1, _⟩
      · rw [hx] at hs'; simp at hs'
      · rw [hx] at hs'; simp only [Result.ok.injEq] at hs'; subst hs'; rw [h1, hc]
    · rcases execute_store_frame s1 (Or.inr (Or.inl h)) with hx | ⟨s2, hx, h1, _⟩
      · rw [hx] at hs'; simp at hs'
      · rw [hx] at hs'; simp only [Result.ok.injEq] at hs'; subst hs'; rw [h1, hc]
    · rcases execute_store_frame s1 (Or.inr (Or.inr h)) with hx | ⟨s2, hx, h1, _⟩
      · rw [hx] at hs'; simp at hs'
      · rw [hx] at hs'; simp only [Result.ok.injEq] at hs'; subst hs'; rw [h1, hc]
    · rw [execute_trap s1 h] at hs'
      rw [(trap_frame hs').1 _ (by decide), hc]
  · rintro (h | h | ⟨h, hv⟩)
    · rw [execute_br s1 h]; exact ⟨_, rfl⟩
    · rw [execute_jmp s1 h]; exact ⟨_, rfl⟩
    · rw [execute_trap s1 h]
      unfold trap
      rcases hv with hv | hv <;> simp only [hv] <;> exact ⟨_, rfl⟩
  · intro h hlt
    unfold execute
    simp only [h]
    rw [hpc, mem_write_inside _ _ _ hlt]
    exact ⟨_, rfl⟩
  · intro h hlt
    unfold execute
    simp only [h]
    rw [hgp, mem_write_inside _ _ _ hlt]
    exact ⟨_, rfl⟩

/-- Witness of C5: a store `ST R0, #1` (word `0x3001`) at `0x3000` completes
and leaves the condition register as it was. -/
theorem cond_unchanged_witness :
    ∃ s', step (boot (upd (fun _ => 0) 0x3000 0x3001) [] false []) = .ok s' ∧
      s'.reg R_COND = (boot (upd (fun _ => 0) 0x3000 0x3001) [] false []).reg R_COND := by
  have h := cond_unchanged (boot (upd (fun _ => 0) 0x3000 0x3001) [] false []) 0x3001
    (by rfl) (Or.inr (Or.inr (Or.inl (by decide))))
  obtain ⟨s', hs'⟩ := h.2.2.1 (by decide) (by decide)
  exact ⟨s', hs', h.1 s' hs'⟩

/-- C7: for every machine state and every fetched BR word whose condition mask
(bits 9..11) shares no set bit with the current condition register, one cycle
completes with the program counter at the fetch-incremented value
`(old PC + 1) mod 2^16`, whatever the offset field holds, and with every
general-purpose register unchanged. -/
theorem br_not_taken (s : VM) (w : Nat) (hf : fetched s = some w) (hop : w >>> 12 = OP_BR)
    (hmask : ((w >>> 9) &&& 0x7) &&& s.reg R_COND = 0) :
    ∃ s', step s = .ok s' ∧ s'.reg PC = (s.reg PC + 1) % 65536 ∧
      ∀ r, r ≤ 7 → s'.reg r = s.reg r := by
  obtain ⟨s1, hf1, hir⟩ := fetched_eq hf
  obtain ⟨hlt, hpc, hreg, _⟩ := fetch_ok hf1
  have hc : s1.reg R_COND = s.reg R_COND := hreg _ (by decide) (by decide)
  subst hir
  rw [step_of_fetch hf1, execute_br s1 hop, hc, if_neg (by simp [hmask])]
  refine ⟨s1, rfl, ?_, ?_⟩
  · rw [hpc, Nat.mod_eq_of_lt]
    simp only [MEMORY_LEN, UINT16_MAX] at hlt; omega
  · intro r hr
    apply hreg <;> simp only [PC, IR] <;> omega

/-- Witness of C7: `BRz` with offset `0x1FF` (word `0x05FF`) while the
condition register is 0 falls through to `0x3001`. -/
theorem br_not_taken_witness :
    ∃ s', step (boot (upd (fun _ => 0) 0x3000 0x05FF) [] false []) = .ok s' ∧
      s'.reg PC = (0x3000 + 1) % 65536 ∧
      ∀ r, r ≤ 7 → s'.reg r = (boot (upd (fun _ => 0) 0x3000 0x05FF) [] false []).reg r :=
  br_not_taken (boot (upd (fun _ => 0) 0x3000 0x05FF) [] false []) 0x05FF (by rfl)
    (by decide) (by decide)

/-- C8: for every machine state and every JSR word (opcode 4, bit 11 set)
fetched at address `p`, one cycle completes with `R7 = (p + 1) mod 2^16`, the
address following the JSR and not `p` itself, and
`PC = (p + 1 + sign_ext(pcoffset11, 11)) mod 2^16`. -/
theorem jsr_link (s : VM) (w : Nat) (hf : fetched s = some w) (hop : w >>> 12 = OP_JSR)
    (hmode : (w >>> 11) &&& 1 = 1) :
    ∃ s', step s = .ok s' ∧ s'.reg R7 = (s.reg PC + 1) % 65536 ∧ s'.reg R7 ≠ s.reg PC ∧
      s'.reg PC = (s.reg PC + 1 + sign_ext (w &&& 0x7FF) 11) % 65536 := by
  obtain ⟨s1, hf1, hir⟩ := fetched_eq hf
  obtain ⟨hlt, hpc, _⟩ := fetch_ok hf1
  subst hir
  have hmod : (s.reg PC + 1) % 65536 = s.reg PC + 1 := by
    apply Nat.mod_eq_of_lt
    simp only [MEMORY_LEN, UINT16_MAX] at hlt; omega
  rw [step_of_fetch hf1, execute_jsr s1 hop, if_pos hmode]
  refine ⟨_, rfl, ?_, ?_, ?_⟩
  · simp [upd, hpc, hmod]
  · simp [upd, hpc]
  · simp [upd, hpc]

/-- Witness of C8: `JSR` with offset `-2` (word `0x4FFE`) at `0x3000` links
`R7 = 0x3001` and jumps to `0x2FFF`. -/
theorem jsr_link_witness :
    ∃ s', step (boot (upd (fun _ => 0) 0x3000 0x4FFE) [] false []) = .ok s' ∧
      s'.reg R7 = 0x3001 ∧ s'.reg PC = 0x2FFF := by
  obtain ⟨s', h1, h2, _, h4⟩ :=
    jsr_link (boot (upd (fun _ => 0) 0x3000 0x4FFE) [] false []) 0x4FFE (by rfl)
      (by decide) (by decide)
  refine ⟨s', h1, ?_, ?_⟩
  · rw [h2]; decide
  · rw [h4]; decide

/-- C6 fails on the code: the array is declared `memory[UINT16_MAX]`, 65535
cells, so the 16-bit address `0xFFFF` is outside it.  In every state a read of
`0xFFFF`, a store to `0xFFFF` and an instruction fetch at `PC = 0xFFFF` take
the out-of-range branch; the last line is a complete program doing so, an
`LDI R0, #0` at `0x3000` whose pointer cell holds `0xFFFF`. -/
theorem memory_top_address_outside (s : VM) :
    MEMORY_LEN = 65535 ∧ mem_read s 0xFFFF = .fault ∧ (∀ v, mem_write s 0xFFFF v = .fault) ∧
      (s.reg PC = 0xFFFF → step s = .fault) ∧
      step (boot (upd (upd (fun _ => 0) 0x3000 0xA000) 0x3001 0xFFFF) [] false []) = .fault := by
  refine ⟨rfl, ?_, ?_, ?_, rfl⟩
  · unfold mem_read; simp
  · intro v; unfold mem_write; simp
  · intro h
    unfold step fetch
    simp only [h]
    unfold mem_read; simp

/-- C9, the claim as stated, fails when the pointer `B` is the keyboard status
address: with `LDI R0, #0` at `0x3000`, `memory[0x3001] = 0xFE00` and
`memory[0xFE00] = 42`, and no key waiting, the cycle loads the refreshed
status word 0 into R0, not 42. -/
theorem ldi_through_kbsr :
    fetched (boot (upd (upd (upd (fun _ => 0) 0x3000 0xA000) 0x3001 0xFE00) 0xFE00 42)
        [] false []) = some 0xA000 ∧
      (0x3000 + 1 + sign_ext (0xA000 &&& 0x1FF) 9) % 65536 = 0x3001 ∧
      upd (upd (upd (fun _ => 0) 0x3000 0xA000) 0x3001 0xFE00) 0xFE00 42 0x3001 = 0xFE00 ∧
      upd (upd (upd (fun _ => 0) 0x3000 0xA000) 0x3001 0xFE00) 0xFE00 42 0xFE00 = 42 ∧
      ∃ s', step (boot (upd (upd (upd (fun _ => 0) 0x3000 0xA000) 0x3001 0xFE00) 0xFE00 42)
          [] false []) = .ok s' ∧ s'.reg R0 = 0 ∧ s'.reg R0 ≠ 42 :=
  ⟨by rfl, by decide, by decide, by decide, _, rfl, by decide, by decide⟩

/-- C9 as amended: for every machine state, every value `v` and every pair of
addresses `A` and `B` that lie inside the memory array and are not the
keyboard status address `0xFE00`: if a fetched LDI word has effective address
`(PC after the fetch increment + sign_ext(pcoffset9, 9)) mod 2^16 = A`,
`memory[A] = B` and `memory[B] = v` before the cycle, then the cycle completes
with `v` in the destination register and the condition register matching
`v`. -/
theorem ldi_indirect (s : VM) (w A B v : Nat) (hf : fetched s = some w)
    (hop : w >>> 12 = OP_LDI)
    (hA : (s.reg PC + 1 + sign_ext (w &&& 0x1FF) 9) % 65536 = A)
    (hAB : s.memory A = B) (hBv : s.memory B = v)
    (hA1 : A ≠ KBSR) (hA2 : A < MEMORY_LEN) (hB1 : B ≠ KBSR) (hB2 : B < MEMORY_LEN) :
    ∃ s', step s = .ok s' ∧ s'.reg ((w >>> 9) &&& 0x7) = v ∧
      s'.reg R_COND = (if v = 0 then ZRO else if 32768 ≤ v then NEG else POS) := by
  obtain ⟨s1, hf1, hir⟩ := fetched_eq hf
  obtain ⟨_, hpc, _⟩ := fetch_ok hf1
  subst hir
  obtain ⟨hmem, _⟩ := fetch_plain hf1 (by rw [hop]; decide) (by rw [hop]; decide)
  have hdr : (s1.reg IR >>> 9) &&& 0x7 ≠ R_COND := by
    have := and_seven_le (s1.reg IR >>> 9)
    simp only [R_COND]; omega
  rw [step_of_fetch hf1]
  unfold execute
  simp only [hop]
  rw [hpc, hA, mem_read_plain s1 A hA1 hA2]
  simp only [hmem, hAB]
  rw [mem_read_plain s1 B hB1 hB2]
  simp only [hmem, hBv]
  refine ⟨_, rfl, ?_, ?_⟩
  · simp only []
    rw [update_flags_other _ _ _ hdr, upd_same]
  · simp only []
    rw [update_flags_cond, upd_same]

/-- Witness of the amended C9, the example of the specification: `LDI R0, #1`
at `0x3000`, `memory[0x3002] = 0x4000` and `memory[0x4000] = 42` load 42 into
R0 with the flag POS. -/
theorem ldi_indirect_witness :
    ∃ s', step (boot (upd (upd (upd (fun _ => 0) 0x3000 0xA001) 0x3002 0x4000) 0x4000 42)
        [] false []) = .ok s' ∧ s'.reg R0 = 42 ∧ s'.reg R_COND = POS :=
  ldi_indirect (boot (upd (upd (upd (fun _ => 0) 0x3000 0xA001) 0x3002 0x4000) 0x4000 42)
    [] false []) 0xA001 0x3002 0x4000 42 (by rfl) (by decide) (by decide) (by decide)
    (by decide) (by decide) (by decide) (by decide) (by decide)

theorem run_halted (n : Nat) (s : VM) (h : s.running = false) : run n s = some (.ok s, 0) := by
  cases n <;> simp [run, h]

theorem fetch_inside (s : VM) (h1 : s.reg PC ≠ KBSR) (h2 : s.reg PC < MEMORY_LEN) :
    ∃ s1, fetch s = .ok s1 := by
  unfold fetch
  simp only []
  rw [mem_read_plain _ _ h1 h2]
  exact ⟨_, rfl⟩

theorem execute_halt (s : VM) (h : s.reg IR >>> 12 = OP_TRAP)
    (hv : s.reg IR &&& 0xFF = TRAP_HALT) :
    execute s = .ok { print text_HALT s with running := false } := by
  rw [execute_trap s h]
  unfold trap
  simp only [hv]

/-- C10, the claim as stated, fails: the cycle that executes `HALT` at
`0x3000` from the boot state also overwrites the instruction register, a
register other than the program counter, with the fetched word `0xF025`. -/
theorem halt_overwrites_ir :
    ∃ s', step (boot (upd (fun _ => 0) 0x3000 0xF025) [] false []) = .ok s' ∧
      s'.running = false ∧ s'.reg IR = 0xF025 ∧
      (boot (upd (fun _ => 0) 0x3000 0xF025) [] false []).reg IR = 0 ∧
      ¬ (∀ r, r ≠ PC → s'.reg r = (boot (upd (fun _ => 0) 0x3000 0xF025) [] false []).reg r) :=
  ⟨_, rfl, rfl, by decide, by decide, fun h => absurd (h IR (by decide)) (by decide)⟩

/-- C10 as amended: from the boot state (all registers zero, `PC = 0x3000`,
running) with the HALT trap word `0xF025` at `0x3000`, the loop executes
exactly one cycle and stops halted with `PC = 0x3001`; the instruction
register holds `0xF025`, every register other than the program counter and the
instruction register is as before, and so is every memory cell. -/
theorem halt_program (memory : Nat → Nat) (input : List Nat) (eof : Bool) (output : List Nat)
    (h : memory 0x3000 = 0xF025) :
    ∃ s', step (boot memory input eof output) = .ok s' ∧
      (∀ n, run (n + 1) (boot memory input eof output) = some (.ok s', 1)) ∧
      s'.running = false ∧ s'.reg PC = 0x3001 ∧ s'.reg IR = 0xF025 ∧
      (∀ r, r ≠ PC → r ≠ IR → s'.reg r = (boot memory input eof output).reg r) ∧
      (∀ a, s'.memory a = memory a) := by
  have hpc : (boot memory input eof output).reg PC = 0x3000 := by
    show upd (fun _ => 0) PC 0x3000 PC = 0x3000
    exact upd_same _ _ _
  have hbm : (boot memory input eof output).memory = memory := rfl
  obtain ⟨s1, hf1⟩ := fetch_inside (boot memory input eof output)
    (by rw [hpc]; decide) (by rw [hpc]; decide)
  obtain ⟨_, hpc1, hreg, hrun, _, hp⟩ := fetch_ok hf1
  obtain ⟨hmem, _, _, hir⟩ := hp (by rw [hpc]; decide)
  rw [hpc, hbm, h] at hir
  have hstep : step (boot memory input eof output) =
      .ok { print text_HALT s1 with running := false } := by
    rw [step_of_fetch hf1]
    exact execute_halt s1 (by rw [hir]; decide) (by rw [hir]; decide)
  refine ⟨_, hstep, ?_, rfl, ?_, hir, hreg, ?_⟩
  · intro n
    have hb : (boot memory input eof output).running = true := rfl
    unfold run
    simp only [hb, if_true, hstep]
    rw [run_halted n _ rfl]
    rfl
  · show s1.reg PC = 0x3001
    rw [hpc1, hpc]
  · intro a
    show s1.memory a = memory a
    rw [hmem, hbm]

/-- Witness of the amended C10 on the memory that holds only the HALT word. -/
theorem halt_program_witness :
    ∃ s', step (boot (upd (fun _ => 0) 0x3000 0xF025) [1, 2] false []) = .ok s' ∧
      (∀ n, run (n + 1) (boot (upd (fun _ => 0) 0x3000 0xF025) [1, 2] false []) =
        some (.ok s', 1)) ∧
      s'.running = false ∧ s'.reg PC = 0x3001 ∧ s'.reg IR = 0xF025 ∧
      (∀ r, r ≠ PC → r ≠ IR →
        s'.reg r = (boot (upd (fun _ => 0) 0x3000 0xF025) [1, 2] false []).reg r) ∧
      (∀ a, s'.memory a = upd (fun _ => 0) 0x3000 0xF025 a) :=
  halt_program (upd (fun _ => 0) 0x3000 0xF025) [1, 2] false [] (by decide)

/-! ## Outcomes of the dispatch -/

theorem puts_loop_ne_abort (memory : Nat → Nat) (n : Nat) :
    ∀ (adr : Nat) (s : VM), puts_loop memory n adr s ≠ .abort := by
  induction n with
  | zero => intro adr s; simp [puts_loop]
  | succ n ih =>
    intro adr s
    unfold puts_loop
    split
    · split
      · exact ih _ _
      · simp
    · simp

theorem putsp_loop_ne_abort (memory : Nat → Nat) (n : Nat) :
    ∀ (adr : Nat) (s : VM), putsp_loop memory n adr s ≠ .abort := by
  induction n with
  | zero => intro adr s; simp [putsp_loop]
  | succ n ih =>
    intro adr s
    unfold putsp_loop
    split
    · split
      · simp only []
        split
        · exact ih _ _
        · simp
      · simp
    · simp

theorem trap_ne_abort (s : VM) : trap s ≠ .abort := by
  unfold trap
  split
  · rcases getchar_cases s with hg | ⟨c, s1, hg⟩ <;> rw [hg] <;> simp
  · simp
  · exact puts_loop_ne_abort _ _ _ _
  · rcases getchar_cases (print prompt_IN s) with hg | ⟨c, s1, hg⟩ <;> rw [hg] <;> simp
  · exact putsp_loop_ne_abort _ _ _ _
  · simp
  · simp

theorem execute_abort_iff (s : VM) (hw : s.reg IR < 65536) :
    execute s = .abort ↔ (s.reg IR >>> 12 = OP_RTI ∨ s.reg IR >>> 12 = OP_RES) := by
  have hlt : s.reg IR >>> 12 < 16 := by
    rw [Nat.shiftRight_eq_div_pow]; omega
  have hcases : s.reg IR >>> 12 = OP_BR ∨ s.reg IR >>> 12 = OP_ADD ∨ s.reg IR >>> 12 = OP_LD ∨
      s.reg IR >>> 12 = OP_ST ∨ s.reg IR >>> 12 = OP_JSR ∨ s.reg IR >>> 12 = OP_AND ∨
      s.reg IR >>> 12 = OP_LDR ∨ s.reg IR >>> 12 = OP_STR ∨ s.reg IR >>> 12 = OP_RTI ∨
      s.reg IR >>> 12 = OP_NOT ∨ s.reg IR >>> 12 = OP_LDI ∨ s.reg IR >>> 12 = OP_STI ∨
      s.reg IR >>> 12 = OP_JMP ∨ s.reg IR >>> 12 = OP_RES ∨ s.reg IR >>> 12 = OP_LEA ∨
      s.reg IR >>> 12 = OP_TRAP := by
    simp only [OP_BR, OP_ADD, OP_LD, OP_ST, OP_JSR, OP_AND, OP_LDR, OP_STR, OP_RTI, OP_NOT,
      OP_LDI, OP_STI, OP_JMP, OP_RES, OP_LEA, OP_TRAP]
    omega
  have alu : ∀ {x : Result VM}, (∃ s', x = .ok s' ∧ OneFlag (s'.reg R_COND)) → x ≠ .abort := by
    rintro x ⟨s', rfl, _⟩; simp
  have load : ∀ {x : Result VM},
      (x = .fault ∨ ∃ s', x = .ok s' ∧ OneFlag (s'.reg R_COND)) → x ≠ .abort := by
    rintro x (rfl | ⟨s', rfl, _⟩) <;> simp
  have store : ∀ {x : Result VM},
      (x = .fault ∨ ∃ s', x = .ok s' ∧ s'.reg = s.reg ∧ s'.running = s.running) →
        x ≠ .abort := by
    rintro x (rfl | ⟨s', rfl, _⟩) <;> simp
  rcases hcases with h | h | h | h | h | h | h | h | h | h | h | h | h | h | h | h
  · simp [execute_br s h, h]
  · simp [alu (execute_alu_flag s (Or.inl h)), h]
  · simp [load (execute_load_flag s (Or.inl h)), h]
  · simp [store (execute_store_frame s (Or.inl h)), h]
  · simp [execute_jsr s h, h]
  · simp [alu (execute_alu_flag s (Or.inr (Or.inl h))), h]
  · simp [load (execute_load_flag s (Or.inr (Or.inr h))), h]
  · simp [store (execute_store_frame s (Or.inr (Or.inr h))), h]
  · constructor
    · intro _; exact Or.inl h
    · intro _; unfold execute; simp only [h]
  · simp [alu (execute_alu_flag s (Or.inr (Or.inr (Or.inl h)))), h]
  · simp [load (execute_load_flag s (Or.inr (Or.inl h))), h]
  · simp [store (execute_store_frame s (Or.inr (Or.inl h))), h]
  · simp [execute_jmp s h, h]
  · constructor
    · intro _; exact Or.inr h
    · intro _; unfold execute; simp only [h]
  · simp [alu (execute_alu_flag s (Or.inr (Or.inr (Or.inr h)))), h]
  · simp [execute_trap s h, trap_ne_abort s, h]

/-- C11: for every machine state whose fetch loads a 16-bit word `w`, the cycle
calls `abort()` if and only if the top four bits of `w` are 8 (RTI) or 13
(RES); for each of the other fourteen opcodes it does not abort, whatever the
other twelve bits and the registers hold. -/
theorem abort_iff_rti_res (s : VM) (w : Nat) (hf : fetched s = some w) (hw : w < 65536) :
    step s = .abort ↔ (w >>> 12 = OP_RTI ∨ w >>> 12 = OP_RES) := by
  obtain ⟨s1, hf1, hir⟩ := fetched_eq hf
  subst hir
  rw [step_of_fetch hf1]
  exact execute_abort_iff s1 hw

/-- Witness of C11: the reserved word `0xD000` at `0x3000` aborts the cycle. -/
theorem abort_iff_rti_res_witness :
    step (boot (upd (fun _ => 0) 0x3000 0xD000) [] false []) = .abort :=
  (abort_iff_rti_res (boot (upd (fun _ => 0) 0x3000 0xD000) [] false []) 0xD000 (by rfl)
    (by decide)).2 (Or.inr (by decide))

theorem putsp_loop_stuck (memory : Nat → Nat) (n adr : Nat) (s : VM)
    (hlt : adr < MEMORY_LEN) (hz : memory adr ≠ 0) (hh : memory adr >>> 8 = 0) :
    putsp_loop memory (n + 1) adr s = .diverge := by
  unfold putsp_loop
  simp [hlt, hz, hh]

/-- Whenever R0 points inside the array at a nonzero word whose high byte is
zero, the PUTSP trap never leaves its loop. -/
theorem trap_putsp_stuck (s : VM) (hv : s.reg IR &&& 0xFF = TRAP_PUTSP)
    (hlt : s.reg R0 < MEMORY_LEN) (hz : s.memory (s.reg R0) ≠ 0)
    (hh : s.memory (s.reg R0) >>> 8 = 0) : trap s = .diverge := by
  unfold trap
  simp only [hv]
  have : MEMORY_LEN + 1 - s.reg R0 = (MEMORY_LEN - s.reg R0) + 1 := by omega
  rw [this]
  exact putsp_loop_stuck _ _ _ _ hlt hz hh

/-- C12 fails on the code, at the input the claim gives as its witness: with
`R0 = 0`, `memory[0] = 0x0041` and `memory[1] = 0`, the PUTSP trap (word
`0xF024` at `0x3000`) does not terminate after writing the character A; the
cycle never returns. -/
theorem putsp_witness_never_returns :
    fetched (boot (upd (upd (fun _ => 0) 0x3000 0xF024) 0 0x0041) [] false []) = some 0xF024 ∧
      (boot (upd (upd (fun _ => 0) 0x3000 0xF024) 0 0x0041) [] false []).reg R0 = 0 ∧
      upd (upd (fun _ => 0) 0x3000 0xF024) 0 0x0041 0 = 0x0041 ∧
      upd (upd (fun _ => 0) 0x3000 0xF024) 0 0x0041 1 = 0 ∧
      step (boot (upd (upd (fun _ => 0) 0x3000 0xF024) 0 0x0041) [] false []) = .diverge := by
  refine ⟨by rfl, by decide, by decide, by decide, ?_⟩
  obtain ⟨s1, hf1⟩ := fetch_inside
    (boot (upd (upd (fun _ => 0) 0x3000 0xF024) 0 0x0041) [] false []) (by decide) (by decide)
  obtain ⟨_, _, hreg, _, _, hp⟩ := fetch_ok hf1
  obtain ⟨hmem, _, _, hir⟩ := hp (by decide)
  have hir' : s1.reg IR = 0xF024 := by rw [hir]; decide
  have hr0 : s1.reg R0 = 0 := by rw [hreg R0 (by decide) (by decide)]; decide
  rw [step_of_fetch hf1, execute_trap s1 (by rw [hir']; decide)]
  apply trap_putsp_stuck s1 (by rw [hir']; decide)
  · rw [hr0]; decide
  · rw [hr0, hmem]; decide
  · rw [hr0, hmem]; decide

theorem toU16_ofNat (x : Nat) : toU16 (Int.ofNat x) = x % 65536 := by
  unfold toU16
  simp only [Int.ofNat_eq_coe]
  omega

theorem mem_read_key (s : VM) (c : Nat) (rest : List Nat) (hi : s.input = c :: rest) :
    mem_read s KBSR = .ok (0x8000,
      { s with memory := (upd (upd s.memory KBSR 0x8000) KBDR (c % 256)), input := rest }) := by
  unfold mem_read check_key getchar
  have hk : KBSR < MEMORY_LEN := by decide
  simp only [hi, if_true, List.isEmpty_cons, Bool.not_false, Bool.true_or, hk]
  rw [toU16_ofNat]
  have : c % 256 % 65536 = c % 256 := by omega
  rw [this]
  simp [upd]

theorem mem_read_idle (s : VM) (hk : check_key s = false) :
    mem_read s KBSR = .ok (0, { s with memory := upd s.memory KBSR 0 }) := by
  unfold mem_read
  have hlt : KBSR < MEMORY_LEN := by decide
  simp [hk, hlt, upd]

/-- C13 fails on the code at the address `0xFFFF`, which the array
`memory[UINT16_MAX]` does not contain: `mem_read(0xFFFF)` has no cell to
return (last line).  For every address inside the array the claim holds:
a read of an address other than `0xFE00` returns the cell and changes nothing;
a read of `0xFE00` with a character `c` waiting returns `0x8000`, stores `c`
in the keyboard data cell, consumes `c` and changes no cell but the two
keyboard cells; a read of `0xFE00` with no input available returns 0, clears
the status cell and changes no other cell and no input. -/
theorem mem_read_cells (s : VM) :
    (∀ a, a ≠ KBSR → a < MEMORY_LEN → mem_read s a = .ok (s.memory a, s)) ∧
      (∀ c rest, s.input = c :: rest → c < 256 →
        ∃ s1, mem_read s KBSR = .ok (0x8000, s1) ∧ s1.memory KBDR = c ∧ s1.input = rest ∧
          s1.memory KBSR = 0x8000 ∧ ∀ a, a ≠ KBSR → a ≠ KBDR → s1.memory a = s.memory a) ∧
      (check_key s = false →
        ∃ s1, mem_read s KBSR = .ok (0, s1) ∧ s1.memory KBSR = 0 ∧ s1.input = s.input ∧
          ∀ a, a ≠ KBSR → s1.memory a = s.memory a) ∧
      mem_read s 0xFFFF = .fault := by
  refine ⟨fun a h1 h2 => mem_read_plain s a h1 h2, ?_, ?_, ?_⟩
  · intro c rest hi hc
    refine ⟨_, mem_read_key s c rest hi, ?_, rfl, ?_, ?_⟩
    · simp only [upd_same]; omega
    · simp [upd]
    · intro a h1 h2
      simp [upd, h1, h2]
  · intro hk
    refine ⟨_, mem_read_idle s hk, ?_, rfl, ?_⟩
    · simp [upd]
    · intro a h1
      simp [upd, h1]
  · unfold mem_read; simp

theorem execute_str (s : VM) (h : s.reg IR >>> 12 = OP_STR) :
    execute s = mem_write s
      ((s.reg ((s.reg IR >>> 6) &&& 0x7) + sign_ext (s.reg IR &&& 0x3F) 6) % 65536)
      (s.reg ((s.reg IR >>> 9) &&& 0x7)) := by
  unfold execute
  simp only [h]

/-- C14 fails on the code when the target address is `0xFFFF`, which the array
`memory[UINT16_MAX]` does not contain: the store then indexes outside the
array (second part), as in the program of the last line, `STR R0, R1, #-1`
with `R1 = 0`, whose target wraps to `0xFFFF`.  For every target inside the
array the claim holds (first part): the target cell receives the value of SR,
and every other cell, R0..R7 and the condition register are unchanged. -/
theorem str_cycle :
    (∀ (s : VM) (w : Nat), fetched s = some w → s.reg PC ≠ KBSR → w >>> 12 = OP_STR →
        (s.reg ((w >>> 6) &&& 0x7) + sign_ext (w &&& 0x3F) 6) % 65536 < MEMORY_LEN →
        ∃ s', step s = .ok s' ∧
          s'.memory ((s.reg ((w >>> 6) &&& 0x7) + sign_ext (w &&& 0x3F) 6) % 65536) =
            s.reg ((w >>> 9) &&& 0x7) ∧
          (∀ a, a ≠ (s.reg ((w >>> 6) &&& 0x7) + sign_ext (w &&& 0x3F) 6) % 65536 →
            s'.memory a = s.memory a) ∧
          (∀ r, r ≤ 7 → s'.reg r = s.reg r) ∧ s'.reg R_COND = s.reg R_COND) ∧
      (∀ (s : VM) (w : Nat), fetched s = some w → w >>> 12 = OP_STR →
        (s.reg ((w >>> 6) &&& 0x7) + sign_ext (w &&& 0x3F) 6) % 65536 = 0xFFFF →
        step s = .fault) ∧
      step (boot (upd (fun _ => 0) 0x3000 0x707F) [] false []) = .fault := by
  have hgp : ∀ (s s1 : VM), fetch s = .ok s1 → ∀ x : Nat, s1.reg (x &&& 0x7) = s.reg (x &&& 0x7) := by
    intro s s1 hf1 x
    obtain ⟨_, _, hreg, _⟩ := fetch_ok hf1
    have := and_seven_le x
    apply hreg <;> simp only [PC, IR] <;> omega
  have top : ∀ (s : VM) (w : Nat), fetched s = some w → w >>> 12 = OP_STR →
      (s.reg ((w >>> 6) &&& 0x7) + sign_ext (w &&& 0x3F) 6) % 65536 = 0xFFFF →
      step s = .fault := by
    intro s w hf hop htop
    obtain ⟨s1, hf1, hir⟩ := fetched_eq hf
    subst hir
    rw [step_of_fetch hf1, execute_str s1 hop, hgp s s1 hf1, htop]
    unfold mem_write
    simp
  refine ⟨?_, top, ?_⟩
  · intro s w hf hpc hop hlt
    obtain ⟨s1, hf1, hir⟩ := fetched_eq hf
    obtain ⟨_, _, hreg, _, _, hp⟩ := fetch_ok hf1
    obtain ⟨hmem, _⟩ := hp hpc
    subst hir
    rw [step_of_fetch hf1, execute_str s1 hop, hgp s s1 hf1, hgp s s1 hf1,
      mem_write_inside _ _ _ hlt]
    refine ⟨_, rfl, ?_, ?_, ?_, ?_⟩
    · simp only [upd_same]
    · intro a ha
      simp only []
      rw [upd_other _ _ _ _ ha, hmem]
    · intro r hr
      apply hreg <;> simp only [PC, IR] <;> omega
    · exact hreg _ (by decide) (by decide)
  · exact top _ 0x707F (by rfl) (by decide) (by decide)

/-! ## What a completed dispatch can change -/

theorem getchar_ok {s s1 : VM} {c : Int} (h : getchar s = .ok (c, s1)) :
    s1.reg = s.reg ∧ s1.memory = s.memory ∧ s1.running = s.running ∧ s1.output = s.output ∧
      s1.eof = s.eof := by
  unfold getchar at h
  cases hi : s.input with
  | nil =>
    cases he : s.eof
    · simp [hi, he] at h
    · simp [hi, he] at h
      obtain ⟨_, rfl⟩ := h
      simp [he]
  | cons c rest =>
    simp [hi] at h
    obtain ⟨_, rfl⟩ := h
    simp

theorem trap_running {s s' : VM} (h : trap s = .ok s') :
    s'.running = if s.reg IR &&& 0xFF = TRAP_HALT then false else s.running := by
  unfold trap at h
  split at h
  next hv =>
    rw [if_neg (by rw [hv]; decide)]
    split at h <;> simp only [Result.ok.injEq, reduceCtorEq] at h
    next c s1 hg =>
      subst h
      exact (getchar_ok hg).2.2.1
  next hv =>
    rw [if_neg (by rw [hv]; decide)]
    simp only [Result.ok.injEq] at h
    subst h
    rfl
  next hv =>
    rw [if_neg (by rw [hv]; decide)]
    exact (puts_loop_frame _ _ _ _ _ h).2.2.2.2
  next hv =>
    rw [if_neg (by rw [hv]; decide)]
    split at h <;> simp only [Result.ok.injEq, reduceCtorEq] at h
    next c s1 hg =>
      subst h
      exact (getchar_ok hg).2.2.1
  next hv =>
    rw [if_neg (by rw [hv]; decide)]
    exact (putsp_loop_frame _ _ _ _ _ h).2.2.2.2
  next hv =>
    rw [if_pos (by rw [hv])]
    simp only [Result.ok.injEq] at h
    subst h
    rfl
  next h20 h21 h22 h23 h24 h25 =>
    rw [if_neg h25]
    simp only [Result.ok.injEq] at h
    subst h
    rfl

theorem not_halt_of_op {s : VM} {k : Nat} (hop : s.reg IR >>> 12 = k) (hk : k ≠ OP_TRAP) :
    ¬ (s.reg IR >>> 12 = OP_TRAP ∧ s.reg IR &&& 0xFF = TRAP_HALT) :=
  fun hh => hk (hop ▸ hh.1)

/-- A dispatch that returns either left the condition register alone or put
exactly one flag bit in it, and cleared `running` only for the HALT trap. -/
theorem execute_ok_frame {s s' : VM} (h : execute s = .ok s') :
    (s'.reg R_COND = s.reg R_COND ∨ OneFlag (s'.reg R_COND)) ∧
      s'.running = if s.reg IR >>> 12 = OP_TRAP ∧ s.reg IR &&& 0xFF = TRAP_HALT then false
        else s.running := by
  unfold execute at h
  simp only [] at h
  split at h
  next hop =>
    simp only [Result.ok.injEq] at h; subst h
    exact ⟨Or.inr (update_flags_oneFlag _ _), by rw [if_neg (not_halt_of_op hop (by decide))]⟩
  next hop =>
    simp only [Result.ok.injEq] at h; subst h
    exact ⟨Or.inr (update_flags_oneFlag _ _), by rw [if_neg (not_halt_of_op hop (by decide))]⟩
  next hop =>
    simp only [Result.ok.injEq] at h; subst h
    exact ⟨Or.inr (update_flags_oneFlag _ _), by rw [if_neg (not_halt_of_op hop (by decide))]⟩
  next hop =>
    rw [if_neg (not_halt_of_op hop (by decide))]
    split at h <;> simp only [Result.ok.injEq] at h <;> subst h
    · exact ⟨Or.inl (by simp [upd]), rfl⟩
    · exact ⟨Or.inl rfl, rfl⟩
  next hop =>
    rw [if_neg (not_halt_of_op hop (by decide))]
    simp only [Result.ok.injEq] at h; subst h
    exact ⟨Or.inl (by simp [upd]), rfl⟩
  next hop =>
    rw [if_neg (not_halt_of_op hop (by decide))]
    split at h <;> simp only [Result.ok.injEq] at h <;> subst h
    · exact ⟨Or.inl (by simp [upd]), rfl⟩
    · exact ⟨Or.inl (by simp [upd]), rfl⟩
  next hop =>
    rw [if_neg (not_halt_of_op hop (by decide))]
    split at h <;> simp only [Result.ok.injEq, reduceCtorEq] at h
    next v s1 hm =>
      subst h
      exact ⟨Or.inr (update_flags_oneFlag _ _), (mem_read_ok hm).2.2.2.1⟩
  next hop =>
    rw [if_neg (not_halt_of_op hop (by decide))]
    split at h
    next a s1 hm =>
      split at h <;> simp only [Result.ok.injEq, reduceCtorEq] at h
      next v s2 hm2 =>
        subst h
        refine ⟨Or.inr (update_flags_oneFlag _ _), ?_⟩
        show s2.running = s.running
        rw [(mem_read_ok hm2).2.2.2.1, (mem_read_ok hm).2.2.2.1]
    all_goals simp only [reduceCtorEq] at h
  next hop =>
    rw [if_neg (not_halt_of_op hop (by decide))]
    split at h <;> simp only [Result.ok.injEq, reduceCtorEq] at h
    next v s1 hm =>
      subst h
      exact ⟨Or.inr (update_flags_oneFlag _ _), (mem_read_ok hm).2.2.2.1⟩
  next hop =>
    simp only [Result.ok.injEq] at h; subst h
    exact ⟨Or.inr (update_flags_oneFlag _ _), by rw [if_neg (not_halt_of_op hop (by decide))]⟩
  next hop =>
    rw [if_neg (not_halt_of_op hop (by decide))]
    rcases mem_write_cases s _ _ with hw | ⟨s2, hw, h1, h2⟩
    · rw [hw] at h; simp at h
    · rw [hw] at h; simp only [Result.ok.injEq] at h; subst h
      exact ⟨Or.inl (by rw [h1]), h2⟩
  next hop =>
    rw [if_neg (not_halt_of_op hop (by decide))]
    split at h
    next a s1 hm =>
      obtain ⟨_, _, hreg, hrun, _⟩ := mem_read_ok hm
      rcases mem_write_cases s1 _ _ with hw | ⟨s2, hw, h1, h2⟩
      · rw [hw] at h; simp at h
      · rw [hw] at h; simp only [Result.ok.injEq] at h; subst h
        exact ⟨Or.inl (by rw [h1, hreg]), by rw [h2, hrun]⟩
    all_goals simp only [reduceCtorEq] at h
  next hop =>
    rw [if_neg (not_halt_of_op hop (by decide))]
    rcases mem_write_cases s _ _ with hw | ⟨s2, hw, h1, h2⟩
    · rw [hw] at h; simp at h
    · rw [hw] at h; simp only [Result.ok.injEq] at h; subst h
      exact ⟨Or.inl (by rw [h1]), h2⟩
  next hop =>
    refine ⟨Or.inl ((trap_frame h).1 _ (by decide)), ?_⟩
    rw [trap_running h]
    simp [hop]
  next => simp only [reduceCtorEq] at h

theorem trap_unknown (s : VM) (h20 : s.reg IR &&& 0xFF ≠ TRAP_GETC)
    (h21 : s.reg IR &&& 0xFF ≠ TRAP_OUT) (h22 : s.reg IR &&& 0xFF ≠ TRAP_PUTS)
    (h23 : s.reg IR &&& 0xFF ≠ TRAP_IN) (h24 : s.reg IR &&& 0xFF ≠ TRAP_PUTSP)
    (h25 : s.reg IR &&& 0xFF ≠ TRAP_HALT) : trap s = .ok s := by
  unfold trap
  split <;> first | rfl | contradiction

theorem trap_out (s : VM) (h : s.reg IR &&& 0xFF = TRAP_OUT) :
    trap s = .ok (putc (toChar (Int.ofNat (s.reg R0))) s) := by
  unfold trap
  simp only [h]

/-- C15: for every machine state and every TRAP word (opcode 15, any vector)
fetched at address `p`, a cycle that completes leaves R7 at its value before
the cycle and `PC = (p + 1) mod 2^16`; no trap aborts, and the OUT and HALT
traps and every vector outside `0x20..0x25` always complete the cycle. -/
theorem trap_no_linkage (s : VM) (w : Nat) (hf : fetched s = some w)
    (hop : w >>> 12 = OP_TRAP) :
    (∀ s', step s = .ok s' → s'.reg R7 = s.reg R7 ∧ s'.reg PC = (s.reg PC + 1) % 65536) ∧
      step s ≠ .abort ∧
      ((w &&& 0xFF = TRAP_OUT ∨ w &&& 0xFF = TRAP_HALT ∨
          (w &&& 0xFF ≠ TRAP_GETC ∧ w &&& 0xFF ≠ TRAP_OUT ∧ w &&& 0xFF ≠ TRAP_PUTS ∧
            w &&& 0xFF ≠ TRAP_IN ∧ w &&& 0xFF ≠ TRAP_PUTSP ∧ w &&& 0xFF ≠ TRAP_HALT)) →
        ∃ s', step s = .ok s') := by
  obtain ⟨s1, hf1, hir⟩ := fetched_eq hf
  obtain ⟨hlt, hpc, hreg, _⟩ := fetch_ok hf1
  subst hir
  rw [step_of_fetch hf1, execute_trap s1 hop]
  refine ⟨?_, trap_ne_abort s1, ?_⟩
  · intro s' hs'
    obtain ⟨hfr, _⟩ := trap_frame hs'
    rw [hfr R7 (by decide), hfr PC (by decide), hreg R7 (by decide) (by decide), hpc,
      Nat.mod_eq_of_lt]
    · exact ⟨rfl, rfl⟩
    · simp only [MEMORY_LEN, UINT16_MAX] at hlt; omega
  · rintro (hv | hv | ⟨h20, h21, h22, h23, h24, h25⟩)
    · exact ⟨_, trap_out s1 hv⟩
    · exact ⟨_, execute_trap s1 hop ▸ execute_halt s1 hop hv⟩
    · exact ⟨_, trap_unknown s1 h20 h21 h22 h23 h24 h25⟩

/-- Witness of C15: the OUT trap `0xF021` at `0x3000` keeps `R7 = 0` and
leaves `PC = 0x3001`. -/
theorem trap_no_linkage_witness :
    ∃ s', step (boot (upd (fun _ => 0) 0x3000 0xF021) [] false []) = .ok s' ∧
      s'.reg R7 = 0 ∧ s'.reg PC = 0x3001 := by
  have h := trap_no_linkage (boot (upd (fun _ => 0) 0x3000 0xF021) [] false []) 0xF021
    (by rfl) (by decide)
  obtain ⟨s', hs'⟩ := h.2.2 (Or.inl (by decide))
  obtain ⟨h7, hpc⟩ := h.1 s' hs'
  exact ⟨s', hs', by rw [h7]; decide, by rw [hpc]; decide⟩

/-- C16: for every running machine state, a cycle that completes leaves the
engine halted if and only if the fetched word has opcode 15 and low byte
`0x25`; every other instruction, and every other trap vector, leaves it
running. -/
theorem halted_iff_halt_trap (s s' : VM) (w : Nat) (hrun : s.running = true)
    (hf : fetched s = some w) (hs : step s = .ok s') :
    s'.running = false ↔ (w >>> 12 = OP_TRAP ∧ w &&& 0xFF = TRAP_HALT) := by
  obtain ⟨s1, hf1, hir⟩ := fetched_eq hf
  obtain ⟨_, _, _, hrun1, _⟩ := fetch_ok hf1
  subst hir
  rw [step_of_fetch hf1] at hs
  rw [(execute_ok_frame hs).2]
  split
  · simp [*]
  · simp [hrun1, hrun, *]

/-- Witness of C16 on the HALT word at `0x3000`: the cycle returns a halted
state. -/
theorem halted_iff_halt_trap_witness :
    ∃ s', step (boot (upd (fun _ => 0) 0x3000 0xF025) [] false []) = .ok s' ∧
      (s'.running = false ↔ (0xF025 >>> 12 = OP_TRAP ∧ 0xF025 &&& 0xFF = TRAP_HALT)) :=
  ⟨_, rfl, halted_iff_halt_trap (boot (upd (fun _ => 0) 0x3000 0xF025) [] false []) _ 0xF025
    rfl (by rfl) rfl⟩

/-- C18: for every machine state and every JSRR word (opcode 4, bit 11 clear)
fetched at address `p`, the cycle completes with `R7 = (p + 1) mod 2^16`,
whatever R7 held before; when the base field names R7 the program counter is
that same value, the jump reading R7 after it was overwritten, and for any
other base register the program counter becomes the value of that register. -/
theorem jsrr_link (s : VM) (w : Nat) (hf : fetched s = some w) (hop : w >>> 12 = OP_JSR)
    (hmode : (w >>> 11) &&& 1 = 0) :
    ∃ s', step s = .ok s' ∧ s'.reg R7 = (s.reg PC + 1) % 65536 ∧
      ((w >>> 6) &&& 0x7 = R7 → s'.reg PC = (s.reg PC + 1) % 65536) ∧
      ((w >>> 6) &&& 0x7 ≠ R7 → s'.reg PC = s.reg ((w >>> 6) &&& 0x7)) := by
  obtain ⟨s1, hf1, hir⟩ := fetched_eq hf
  obtain ⟨hlt, hpc, hreg, _⟩ := fetch_ok hf1
  subst hir
  have hmod : (s.reg PC + 1) % 65536 = s.reg PC + 1 := by
    apply Nat.mod_eq_of_lt
    simp only [MEMORY_LEN, UINT16_MAX] at hlt; omega
  have hgp : ∀ x : Nat, s1.reg (x &&& 0x7) = s.reg (x &&& 0x7) := by
    intro x
    have := and_seven_le x
    apply hreg <;> simp only [PC, IR] <;> omega
  rw [step_of_fetch hf1, execute_jsr s1 hop, if_neg (by rw [hmode]; decide)]
  refine ⟨_, rfl, ?_, ?_, ?_⟩
  · simp [upd, hpc, hmod]
  · intro hb
    simp [upd, hb, hpc, hmod]
  · intro hb
    simp only [upd_same]
    rw [upd_other _ _ _ _ hb, hgp]

/-- Witness of C18: `JSRR R7` (word `0x41C0`) at `0x3000` leaves both R7 and
the program counter at `0x3001`. -/
theorem jsrr_link_witness :
    ∃ s', step (boot (upd (fun _ => 0) 0x3000 0x41C0) [] false []) = .ok s' ∧
      s'.reg R7 = 0x3001 ∧ s'.reg PC = 0x3001 := by
  obtain ⟨s', h1, h2, h3, _⟩ :=
    jsrr_link (boot (upd (fun _ => 0) 0x3000 0x41C0) [] false []) 0x41C0 (by rfl)
      (by decide) (by decide)
  exact ⟨s', h1, by rw [h2]; decide, by rw [h3 (by decide)]; decide⟩

/-- C20: for every machine state whose program counter is not the keyboard
status address and every fetched TRAP word whose low byte is none of the six
vectors `0x20..0x25`, the cycle completes (it does not abort), writes no
output, consumes no input, leaves `running` as it was and changes nothing but
the program counter, incremented by one, and the instruction register. -/
theorem trap_unknown_vector (s : VM) (w : Nat) (hf : fetched s = some w)
    (hpc : s.reg PC ≠ KBSR) (hop : w >>> 12 = OP_TRAP)
    (h20 : w &&& 0xFF ≠ TRAP_GETC) (h21 : w &&& 0xFF ≠ TRAP_OUT)
    (h22 : w &&& 0xFF ≠ TRAP_PUTS) (h23 : w &&& 0xFF ≠ TRAP_IN)
    (h24 : w &&& 0xFF ≠ TRAP_PUTSP) (h25 : w &&& 0xFF ≠ TRAP_HALT) :
    ∃ s', step s = .ok s' ∧ s'.output = s.output ∧ s'.input = s.input ∧ s'.eof = s.eof ∧
      s'.running = s.running ∧ s'.memory = s.memory ∧
      s'.reg PC = (s.reg PC + 1) % 65536 ∧ s'.reg IR = w ∧
      ∀ r, r ≠ PC → r ≠ IR → s'.reg r = s.reg r := by
  obtain ⟨s1, hf1, hir⟩ := fetched_eq hf
  obtain ⟨hlt, hpc1, hreg, hrun, hout, hp⟩ := fetch_ok hf1
  obtain ⟨hmem, hin, heof, _⟩ := hp hpc
  subst hir
  rw [step_of_fetch hf1, execute_trap s1 hop, trap_unknown s1 h20 h21 h22 h23 h24 h25]
  refine ⟨s1, rfl, hout, hin, heof, hrun, hmem, ?_, rfl, hreg⟩
  rw [hpc1, Nat.mod_eq_of_lt]
  simp only [MEMORY_LEN, UINT16_MAX] at hlt; omega

/-- Witness of C20: the word `0xF0FF` (vector `0xFF`) at `0x3000` with two
bytes of input waiting. -/
theorem trap_unknown_vector_witness :
    ∃ s', step (boot (upd (fun _ => 0) 0x3000 0xF0FF) [7, 8] false [9]) = .ok s' ∧
      s'.output = [9] ∧ s'.input = [7, 8] ∧ s'.running = true ∧ s'.reg PC = 0x3001 ∧
      s'.reg IR = 0xF0FF := by
  obtain ⟨s', h1, h2, h3, _, h5, _, h7, h8, _⟩ :=
    trap_unknown_vector (boot (upd (fun _ => 0) 0x3000 0xF0FF) [7, 8] false [9]) 0xF0FF
      (by rfl) (by decide) (by decide) (by decide) (by decide) (by decide) (by decide)
      (by decide) (by decide)
  exact ⟨s', h1, h2, h3, h5, by rw [h7]; decide, h8⟩

theorem step_cond {s s' : VM} (h : step s = .ok s') :
    s'.reg R_COND = s.reg R_COND ∨ OneFlag (s'.reg R_COND) := by
  unfold step at h
  split at h
  next s1 hf1 =>
    obtain ⟨_, _, hreg, _⟩ := fetch_ok hf1
    rw [← hreg R_COND (by decide) (by decide)]
    exact (execute_ok_frame h).1
  all_goals simp only [reduceCtorEq] at h

theorem cycles_invariant (P : Nat → Prop)
    (hP : ∀ s s' : VM, P (s.reg R_COND) → step s = .ok s' → P (s'.reg R_COND)) (n : Nat) :
    ∀ s t : VM, P (s.reg R_COND) → cycles n s = .ok t → P (t.reg R_COND) := by
  induction n with
  | zero =>
    intro s t hs h
    simp only [cycles, Result.ok.injEq] at h
    subst h; exact hs
  | succ n ih =>
    intro s t hs h
    unfold cycles at h
    split at h
    · split at h
      next s1 hstep => exact ih s1 t (hP s s1 hs hstep) h
      all_goals simp only [reduceCtorEq] at h
    · simp only [Result.ok.injEq] at h
      subst h; exact hs

theorem oneFlag_ne_zero {c : Nat} (h : OneFlag c) : c ≠ 0 := by
  unfold OneFlag at h
  simp only [POS, ZRO, NEG] at h
  omega

/-- C19: a cycle that completes from a state whose condition register holds
exactly one of POS, ZRO, NEG ends in such a state, for every instruction word;
in every state the loop reaches from the boot state the condition register is
0 or exactly one of the three flag bits; and once a flag-updating instruction
(ADD, AND, NOT, LD, LDI, LDR, LEA) has completed, the register holds exactly
one flag bit, hence is not 0, in every state reached afterwards. -/
theorem cond_flag_invariant :
    (∀ s s' : VM, OneFlag (s.reg R_COND) → step s = .ok s' → OneFlag (s'.reg R_COND)) ∧
      (∀ (memory : Nat → Nat) (input : List Nat) (eof : Bool) (output : List Nat) (n : Nat)
        (t : VM), cycles n (boot memory input eof output) = .ok t →
        t.reg R_COND = 0 ∨ OneFlag (t.reg R_COND)) ∧
      (∀ (s s' : VM) (w : Nat), fetched s = some w →
        (w >>> 12 = OP_ADD ∨ w >>> 12 = OP_AND ∨ w >>> 12 = OP_NOT ∨ w >>> 12 = OP_LEA ∨
          w >>> 12 = OP_LD ∨ w >>> 12 = OP_LDI ∨ w >>> 12 = OP_LDR) →
        step s = .ok s' →
        ∀ (n : Nat) (t : VM), cycles n s' = .ok t →
          OneFlag (t.reg R_COND) ∧ t.reg R_COND ≠ 0) := by
  have keep : ∀ s s' : VM, OneFlag (s.reg R_COND) → step s = .ok s' →
      OneFlag (s'.reg R_COND) := by
    intro s s' hs h
    rcases step_cond h with e | e
    · rw [e]; exact hs
    · exact e
  refine ⟨keep, ?_, ?_⟩
  · intro memory input eof output n t h
    refine cycles_invariant (fun c => c = 0 ∨ OneFlag c) ?_ n _ t (Or.inl rfl) h
    intro s s' hs hstep
    rcases step_cond hstep with e | e
    · rw [e]; exact hs
    · exact Or.inr e
  · intro s s' w hf hop hstep n t ht
    have hone : OneFlag (s'.reg R_COND) := by
      obtain ⟨s1, hf1, hir⟩ := fetched_eq hf
      subst hir
      rw [step_of_fetch hf1] at hstep
      rcases hop with h | h | h | h | h | h | h
      · obtain ⟨s2, h2, hfl⟩ := execute_alu_flag s1 (Or.inl h)
        rw [h2] at hstep; simp only [Result.ok.injEq] at hstep; subst hstep; exact hfl
      · obtain ⟨s2, h2, hfl⟩ := execute_alu_flag s1 (Or.inr (Or.inl h))
        rw [h2] at hstep; simp only [Result.ok.injEq] at hstep; subst hstep; exact hfl
      · obtain ⟨s2, h2, hfl⟩ := execute_alu_flag s1 (Or.inr (Or.inr (Or.inl h)))
        rw [h2] at hstep; simp only [Result.ok.injEq] at hstep; subst hstep; exact hfl
      · obtain ⟨s2, h2, hfl⟩ := execute_alu_flag s1 (Or.inr (Or.inr (Or.inr h)))
        rw [h2] at hstep; simp only [Result.ok.injEq] at hstep; subst hstep; exact hfl
      · rcases execute_load_flag s1 (Or.inl h) with h2 | ⟨s2, h2, hfl⟩
        · rw [h2] at hstep; simp at hstep
        · rw [h2] at hstep; simp only [Result.ok.injEq] at hstep; subst hstep; exact hfl
      · rcases execute_load_flag s1 (Or.inr (Or.inl h)) with h2 | ⟨s2, h2, hfl⟩
        · rw [h2] at hstep; simp at hstep
        · rw [h2] at hstep; simp only [Result.ok.injEq] at hstep; subst hstep; exact hfl
      · rcases execute_load_flag s1 (Or.inr (Or.inr h)) with h2 | ⟨s2, h2, hfl⟩
        · rw [h2] at hstep; simp at hstep
        · rw [h2] at hstep; simp only [Result.ok.injEq] at hstep; subst hstep; exact hfl
    have := cycles_invariant OneFlag keep n s' t hone ht
    exact ⟨this, oneFlag_ne_zero this⟩

/-! ## The image loader -/

theorem swap16_host_word (b0 b1 : Nat) :
    swap16 (host_word b0 b1) = b0 % 256 * 256 + b1 % 256 := by
  unfold swap16 host_word
  have hb : (b0 % 256 + 256 * (b1 % 256)) >>> 8 = b1 % 256 := by
    rw [Nat.shiftRight_eq_div_pow]; omega
  have hor : ((b0 % 256 + 256 * (b1 % 256)) <<< 8) ||| (b1 % 256) =
      2 ^ 8 * (b0 % 256 + 256 * (b1 % 256)) + b1 % 256 := by
    rw [Nat.shiftLeft_eq, Nat.mul_comm]
    exact (Nat.mul_add_lt_is_or (by omega) _).symm
  rw [hb, hor]
  omega

theorem swap16_word_bytes (w : Nat) (hw : w < 65536) :
    swap16 (host_word (w / 256) (w % 256)) = w := by
  rw [swap16_host_word]; omega

theorem word_bytes_length (ws : List Nat) : (word_bytes ws).length = 2 * ws.length := by
  induction ws with
  | nil => rfl
  | cons w ws ih => simp only [word_bytes, List.length_cons, ih]; omega

theorem fread_words_spec (ws : List Nat) :
    ∀ (memory : Nat → Nat) (count p : Nat), ws.length ≤ count →
      (∀ i w, ws[i]? = some w →
        fread_words memory count p (word_bytes ws) (p + i) = host_word (w / 256) (w % 256)) ∧
      (∀ a, (a < p ∨ p + ws.length ≤ a) →
        fread_words memory count p (word_bytes ws) a = memory a) := by
  induction ws with
  | nil =>
    intro memory count p _
    refine ⟨fun i w h => by simp at h, fun a _ => ?_⟩
    cases count <;> simp [fread_words, word_bytes]
  | cons w0 ws ih =>
    intro memory count p hc
    cases count with
    | zero => simp at hc
    | succ c =>
      simp only [List.length_cons] at hc
      obtain ⟨ih1, ih2⟩ := ih (upd memory p (host_word (w0 / 256) (w0 % 256))) c (p + 1)
        (by omega)
      simp only [word_bytes, fread_words]
      constructor
      · intro i w hi
        cases i with
        | zero =>
          simp only [List.getElem?_cons_zero, Option.some.injEq] at hi
          subst hi
          show fread_words _ c (p + 1) (word_bytes ws) p = _
          rw [ih2 p (Or.inl (by omega)), upd_same]
        | succ j =>
          simp only [List.getElem?_cons_succ] at hi
          have := ih1 j w hi
          rw [show p + (j + 1) = p + 1 + j by omega]
          exact this
      · intro a ha
        simp only [List.length_cons] at ha
        rw [ih2 a (by omega), upd_other _ _ _ _ (by omega)]

theorem swap_loop_spec (n : Nat) :
    ∀ (memory : Nat → Nat) (p a : Nat),
      swap_loop memory n p a = if p ≤ a ∧ a < p + n then swap16 (memory a) else memory a := by
  induction n with
  | zero =>
    intro memory p a
    rw [if_neg (by omega)]
    rfl
  | succ n ih =>
    intro memory p a
    simp only [swap_loop]
    rw [ih]
    by_cases hap : a = p
    · subst hap
      rw [if_neg (by omega), if_pos (by omega), upd_same]
    · rw [upd_other _ _ _ _ hap]
      by_cases hin : p + 1 ≤ a ∧ a < p + 1 + n
      · rw [if_pos hin, if_pos (by omega)]
      · rw [if_neg hin, if_neg (by omega)]

/-- C17: for every memory and every image made of a big-endian origin word `o`
followed by `n` big-endian 16-bit words with `o + n ≤ 65535`,
`read_image_file` returns a memory that holds the `i`-th word at cell `o + i`
for every `i < n` and equals the old memory in every cell outside
`o .. o + n - 1`; so loading a later image changes only the cells it
covers. -/
theorem read_image_file_spec (memory : Nat → Nat) (o : Nat) (ws : List Nat)
    (ho : o + ws.length ≤ 65535) (hws : ∀ w ∈ ws, w < 65536) :
    ∃ m, read_image_file memory (image_bytes o ws) = some m ∧
      (∀ i w, ws[i]? = some w → m (o + i) = w) ∧
      (∀ a, (a < o ∨ o + ws.length ≤ a) → m a = memory a) := by
  have horigin : swap16 (host_word (o / 256) (o % 256)) = o :=
    swap16_word_bytes o (by omega)
  have hmax : (UINT16_MAX - o) % 65536 = 65535 - o := by
    simp only [UINT16_MAX]; omega
  have hread : min (65535 - o) ((word_bytes ws).length / 2) = ws.length := by
    rw [word_bytes_length]; omega
  obtain ⟨f1, f2⟩ := fread_words_spec ws memory (65535 - o) o (by omega)
  refine ⟨swap_loop (fread_words memory (65535 - o) o (word_bytes ws)) ws.length o, ?_, ?_, ?_⟩
  · unfold read_image_file image_bytes
    simp only [horigin, hmax, hread]
  · intro i w hi
    have hlt : i < ws.length := by
      rcases Nat.lt_or_ge i ws.length with h | h
      · exact h
      · rw [List.getElem?_eq_none h] at hi; simp at hi
    have hw : w < 65536 := hws w (List.getElem?_mem hi)
    rw [swap_loop_spec, if_pos (by omega), f1 i w hi, swap16_word_bytes w hw]
  · intro a ha
    rw [swap_loop_spec, if_neg (by omega), f2 a ha]

/-- Witness of C17: the image `30 00 10 25 F0 25` written over a memory that
holds 7 everywhere puts `0x1025` at `0x3000`, `0xF025` at `0x3001` and leaves
`0x2FFF` and `0x3002` at 7. -/
theorem read_image_file_spec_witness :
    ∃ m, read_image_file (fun _ => 7) [0x30, 0x00, 0x10, 0x25, 0xF0, 0x25] = some m ∧
      m 0x3000 = 0x1025 ∧ m 0x3001 = 0xF025 ∧ m 0x2FFF = 7 ∧ m 0x3002 = 7 := by
  obtain ⟨m, h1, h2, h3⟩ := read_image_file_spec (fun _ => 7) 0x3000 [0x1025, 0xF025]
    (by decide) (by decide)
  exact ⟨m, h1, h2 0 0x1025 rfl, h2 1 0xF025 rfl, h3 0x2FFF (Or.inl (by decide)),
    h3 0x3002 (Or.inr (by decide))⟩

end LC3
